import Mathlib

/-!
Verification of the obsidian-journal-prepare core: the recurrence rule
engine (`src/src/events/recurrence.rs`, `src/src/events.rs`,
`src/utils/src/date.rs`) and the idempotent document model
(`src/preparer/src/page/content.rs`, `src/utils/src/page.rs`,
`src/src/page.rs`).

The Rust code is shallowly embedded: `u32`/`i32` values become `Nat`/`Int`
(no overflow is reachable in the modelled ranges), `Vec<T>` becomes
`List T`, fallible conversions return `Except String _` mirroring the
`anyhow` error messages, and a Rust `unwrap` that could panic is modelled
by an `Option` result.  Rust `String`s are modelled as `List Char`
(`Str` below) so that text manipulation is by structural recursion.

Calendar functions supplied by the external `chrono` crate
(`NaiveDate::weekday/day/ordinal/day0`, date validity, leap years) are
modelled by the standard proleptic-Gregorian definitions, which is the
documented behaviour of that crate.
-/

/-! ## Calendar model (chrono behaviour) -/

/-- Proleptic Gregorian leap-year rule, as implemented by chrono. -/
def isLeapYear (y : Int) : Bool :=
  (y % 4 == 0 && y % 100 != 0) || y % 400 == 0

/-- Number of days of month `m` (1-based) of year `y`, the chrono
`NaiveDate` validity bound.  Returns 0 for an invalid month number. -/
def daysInMonth (y : Int) (m : Nat) : Nat :=
  match m with
  | 1 => 31 | 3 => 31 | 5 => 31 | 7 => 31 | 8 => 31 | 10 => 31 | 12 => 31
  | 4 => 30 | 6 => 30 | 9 => 30 | 11 => 30
  | 2 => if isLeapYear y then 29 else 28
  | _ => 0

/-- A calendar date, the model of `chrono::NaiveDate`. -/
structure Date where
  year : Int
  month : Nat
  day : Nat
deriving DecidableEq, Repr

/-- The chrono validity invariant of a `NaiveDate`: month and day in range. -/
def Date.Valid (d : Date) : Prop :=
  1 ≤ d.month ∧ d.month ≤ 12 ∧ 1 ≤ d.day ∧ d.day ≤ daysInMonth d.year d.month

instance (d : Date) : Decidable d.Valid := by
  unfold Date.Valid; infer_instance

/-- Days since 1970-01-01 of a (valid) civil date, the standard
days-from-civil algorithm used to model chrono's internal day count. -/
def daysFromCivil (d : Date) : Int :=
  let y' : Int := if d.month ≤ 2 then d.year - 1 else d.year
  let era : Int := Int.fdiv y' 400
  let yoe : Int := y' - era * 400
  let mp : Nat := (d.month + 9) % 12
  let doy : Nat := (153 * mp + 2) / 5 + (d.day - 1)
  let doe : Int := yoe * 365 + Int.fdiv yoe 4 - Int.fdiv yoe 100 + (doy : Int)
  era * 146097 + doe - 719468

/-- The `chrono::Weekday` enumeration. -/
inductive Weekday
  | mon | tue | wed | thu | fri | sat | sun
deriving DecidableEq, Repr

/-- Weekday of a date: 1970-01-01 is a Thursday; index 0 is Monday as in
chrono's `num_days_from_monday`. -/
def Date.weekday (d : Date) : Weekday :=
  match ((daysFromCivil d + 3).emod 7).toNat with
  | 0 => .mon | 1 => .tue | 2 => .wed | 3 => .thu | 4 => .fri | 5 => .sat
  | _ => .sun

/-- Days in the months strictly before month `m`, for a non-leap year. -/
def daysBeforeMonthBase (m : Nat) : Nat :=
  match m with
  | 1 => 0 | 2 => 31 | 3 => 59 | 4 => 90 | 5 => 120 | 6 => 151
  | 7 => 181 | 8 => 212 | 9 => 243 | 10 => 273 | 11 => 304 | 12 => 334
  | _ => 0

/-- Day of the year (1-based), the model of `chrono::Datelike::ordinal`. -/
def Date.ordinal (d : Date) : Nat :=
  daysBeforeMonthBase d.month
    + (if 3 ≤ d.month ∧ isLeapYear d.year then 1 else 0) + d.day

/-- Zero-based day of the month, the model of `chrono::Datelike::day0`. -/
def Date.day0 (d : Date) : Nat := d.day - 1

/-- Chronological order on dates (lexicographic on year, month, day),
the model of `chrono::NaiveDate`'s `Ord`. -/
def Date.leb (a b : Date) : Bool :=
  a.year < b.year
    || (a.year == b.year
        && (a.month < b.month || (a.month == b.month && a.day ≤ b.day)))

/-! ## `src/utils/src/date.rs`: validated day numbers and `Month` -/

/-- A validated day of the month, `Monthday` from `src/utils/src/date.rs`. -/
structure Monthday where
  val : Nat
deriving DecidableEq, Repr

/-- Model of `TryFrom<u32> for Monthday`: accepts `0 < index < 32`, otherwise fails
with the `InvalidMonthday` display text. -/
def Monthday.tryFrom (index : Nat) : Except String Monthday :=
  if index > 0 && index < 32 then
    .ok ⟨index⟩
  else
    .error ("Invalid month day " ++ toString index)

/-- A validated day of the year, `Yearday` from `src/utils/src/date.rs`. -/
structure Yearday where
  val : Nat
deriving DecidableEq, Repr

/-- Model of `TryFrom<u32> for Yearday`: accepts `0 < index < 367`, otherwise fails
with the `InvalidYearday` display text. -/
def Yearday.tryFrom (index : Nat) : Except String Yearday :=
  if index > 0 && index < 367 then
    .ok ⟨index⟩
  else
    .error ("Invalid year day " ++ toString index)

/-- Model of `Month` from `src/utils/src/date.rs`: a year/month pair. -/
structure Month where
  year : Int
  month : Nat
deriving DecidableEq, Repr

/-- Model of `Month::from(NaiveDate)`. -/
def Month.fromDate (d : Date) : Month := ⟨d.year, d.month⟩

/-- Model of `Month::num_days` from `src/utils/src/date.rs`: 29/28 for February by
the leap rule (`NaiveDate::from_ymd_opt(year, month, 29).is_some()`), 31
for the seven long months, 30 for anything else. -/
def Month.num_days (m : Month) : Nat :=
  match m.month with
  | 2 => if isLeapYear m.year then 29 else 28
  | 1 => 31 | 3 => 31 | 5 => 31 | 7 => 31 | 8 => 31 | 10 => 31 | 12 => 31
  | _ => 30

/-! ## `src/src/events/recurrence.rs`: the recurrence rule -/

/-- The `Frequency` tag of a loosely-typed recurrence record. -/
inductive Frequency
  | daily | weekly | monthly | yearly | once
deriving DecidableEq, Repr

/-- The `WeekIndex` ordinal selector. -/
inductive WeekIndex
  | first | second | third | fourth | last
deriving DecidableEq, Repr

/-- The strict `Recurrence` union from `src/src/events/recurrence.rs`. -/
inductive Recurrence
  | daily
  | weekly (weekdays : List Weekday)
  | monthly (monthdays : List Monthday)
  | relativeMonthly (weekdays : List Weekday) (index : WeekIndex)
  | yearly (yeardays : List Yearday)
  | once (dates : List Date)
deriving DecidableEq, Repr

/-- Model of `Recurrence::matches`.  The two `unwrap`s of the Rust source (on the
`Monthday`/`Yearday` conversions in the `Monthly`/`Yearly` arms) are
modelled by an `Option` result: `none` is a panic of the Rust code. -/
def Recurrence.matchesOpt (r : Recurrence) (date : Date) : Option Bool :=
  match r with
  | .daily => some true
  | .weekly weekdays => some (decide (date.weekday ∈ weekdays))
  | .monthly monthdays =>
    match Monthday.tryFrom date.day with
    | .ok m => some (decide (m ∈ monthdays))
    | .error _ => none
  | .yearly yeardays =>
    match Yearday.tryFrom date.ordinal with
    | .ok y => some (decide (y ∈ yeardays))
    | .error _ => none
  | .once dates => some (decide (date ∈ dates))
  | .relativeMonthly weekdays index =>
    some (if date.weekday ∈ weekdays then
      let monthday0 := date.day0
      let week_index := monthday0 / 7
      let month := Month.fromDate date
      let from_last_index := (month.num_days - date.day) / 7
      match index with
      | .first => week_index == 0
      | .second => week_index == 1
      | .third => week_index == 2
      | .fourth => week_index == 3
      | .last => from_last_index == 0
    else false)

/-- The loosely-typed input record `SerdeRecurrence`. -/
structure SerdeRecurrence where
  frequency : Frequency
  weekdays : List Weekday := []
  monthdays : List Nat := []
  yeardays : List Nat := []
  dates : List Date := []
  index : Option WeekIndex := none
deriving DecidableEq, Repr

/-- Model of `monthdays.into_iter().map(Monthday::try_from).collect::<Result<...>>()`:
stops at and returns the first conversion error. -/
def collectMonthdays : List Nat → Except String (List Monthday)
  | [] => .ok []
  | n :: rest =>
    match Monthday.tryFrom n with
    | .error e => .error e
    | .ok m =>
      match collectMonthdays rest with
      | .error e => .error e
      | .ok ms => .ok (m :: ms)

/-- Model of `yeardays.into_iter().map(Yearday::try_from).collect::<Result<...>>()`. -/
def collectYeardays : List Nat → Except String (List Yearday)
  | [] => .ok []
  | n :: rest =>
    match Yearday.tryFrom n with
    | .error e => .error e
    | .ok y =>
      match collectYeardays rest with
      | .error e => .error e
      | .ok ys => .ok (y :: ys)

/-- Model of `TryFrom<SerdeRecurrence> for Recurrence` from
`src/src/events/recurrence.rs`, with the exact `anyhow::bail!` messages. -/
def Recurrence.tryFrom (serde : SerdeRecurrence) : Except String Recurrence :=
  match serde.frequency with
  | .daily =>
    if serde.weekdays ≠ [] then
      .error "`weekdays` not allowed for daily recurrence"
    else if serde.monthdays ≠ [] then
      .error "`monthdays` not allowed for daily recurrence"
    else if serde.yeardays ≠ [] then
      .error "`yeardays` not allowed for daily recurrence"
    else if serde.dates ≠ [] then
      .error "`dates` not allowed for daily recurrence"
    else .ok .daily
  | .weekly =>
    if serde.monthdays ≠ [] then
      .error "`monthdays` not allowed for weekly recurrence"
    else if serde.yeardays ≠ [] then
      .error "`yeardays` not allowed for weekly recurrence"
    else if serde.dates ≠ [] then
      .error "`dates` not allowed for weekly recurrence"
    else if serde.weekdays = [] then
      .error "`weekdays` must be specified"
    else .ok (.weekly serde.weekdays)
  | .monthly =>
    if serde.yeardays ≠ [] then
      .error "`yeardays` not allowed for monthly recurrence"
    else if serde.dates ≠ [] then
      .error "`dates` not allowed for monthly recurrence"
    else if serde.weekdays = [] then
      if serde.monthdays = [] then
        .error "Either `monthdays` or `weekdays` must be specified"
      else
        match collectMonthdays serde.monthdays with
        | .ok ms => .ok (.monthly ms)
        | .error e => .error e
    else .ok (.relativeMonthly serde.weekdays (serde.index.getD .first))
  | .yearly =>
    if serde.weekdays ≠ [] then
      .error "`weekdays` not allowed for yearly recurrence"
    else if serde.monthdays ≠ [] then
      .error "`monthdays` not allowed for yearly recurrence"
    else if serde.dates ≠ [] then
      .error "`dates` not allowed for yearly recurrence"
    else if serde.yeardays = [] then
      .error "`yeardays` must be specified"
    else
      match collectYeardays serde.yeardays with
      | .ok ys => .ok (.yearly ys)
      | .error e => .error e
  | .once =>
    if serde.weekdays ≠ [] then
      .error "`weekdays` not allowed for once recurrence"
    else if serde.monthdays ≠ [] then
      .error "`monthdays` not allowed for once recurrence"
    else if serde.yeardays ≠ [] then
      .error "`yeardays` not allowed for once recurrence"
    else if serde.dates = [] then
      .error "`dates` must be specified"
    else .ok (.once serde.dates)

/-! ## `src/src/events.rs`: events and date ranges -/

/-- Model of `DateRange`: optional inclusive bounds. -/
structure DateRange where
  fromDate : Option Date := none
  toDate : Option Date := none
deriving DecidableEq, Repr

/-- Model of `DateRange::contains`: `(from.is_none() || from <= Some(date)) &&
(to.is_none() || to >= Some(date))`, with `None < Some _` in the Rust
`Option` order so the comparisons reduce to the inner dates. -/
def DateRange.containsB (r : DateRange) (date : Date) : Bool :=
  (match r.fromDate with
   | none => true
   | some f => f.leb date)
  && (match r.toDate with
      | none => true
      | some t => date.leb t)

/-- The `Event` record: a recurrence plus content, validity and
exceptions. -/
structure Event where
  recurrence : Recurrence
  content : String := ""
  validity : DateRange := {}
  exceptions : List DateRange := []

/-- Model of `Event::matches`: false outside `validity`, false inside any
exception range, otherwise the recurrence decides.  Propagates the panic
possibility (`none`) of `Recurrence::matches`. -/
def Event.matchesOpt (ev : Event) (date : Date) : Option Bool :=
  if !ev.validity.containsB date then some false
  else if ev.exceptions.any (·.containsB date) then some false
  else ev.recurrence.matchesOpt date

example : (⟨2026, 2, 1⟩ : Date).weekday = .sun := by decide
example : (⟨2026, 2, 2⟩ : Date).weekday = .mon := by decide
example : (⟨2024, 2, 29⟩ : Date).ordinal = 60 := by decide
example : (⟨2026, 2, 1⟩ : Date).ordinal = 32 := by decide

/-! ## Spec-level matching predicate and bridging lemmas -/

/-- Upper bound on `daysInMonth`. -/
theorem daysInMonth_le_31 (y : Int) (m : Nat) : daysInMonth y m ≤ 31 := by
  unfold daysInMonth
  split <;> first | omega | (split <;> omega)

/-- For a real month number, `Month::num_days` agrees with the chrono
day-count bound. -/
theorem num_days_eq_daysInMonth (y : Int) (m : Nat) (h1 : 1 ≤ m)
    (h2 : m ≤ 12) : Month.num_days ⟨y, m⟩ = daysInMonth y m := by
  interval_cases m <;> rfl

/-- The ordinal of a valid date lies in `[1, 366]`. -/
theorem ordinal_bounds (d : Date) (h : d.Valid) :
    1 ≤ d.ordinal ∧ d.ordinal ≤ 366 := by
  obtain ⟨h1, h2, h3, h4⟩ := h
  unfold Date.ordinal
  have hle : d.day ≤ daysInMonth d.year d.month := h4
  constructor
  · omega
  · cases hly : isLeapYear d.year <;>
      [skip; skip] <;>
      · obtain ⟨y, m, day⟩ := d
        simp only at *
        interval_cases m <;>
          simp only [daysInMonth, daysBeforeMonthBase, hly] at * <;>
          simp_all <;> omega

/-- A `Monthday` list membership can be read off the day numbers. -/
theorem monthday_mem_map (n : Nat) (ms : List Monthday) :
    (⟨n⟩ : Monthday) ∈ ms ↔ n ∈ ms.map Monthday.val := by
  simp only [List.mem_map]
  constructor
  · intro h; exact ⟨⟨n⟩, h, rfl⟩
  · rintro ⟨⟨a⟩, ha, he⟩; cases he; exact ha

/-- A `Yearday` list membership can be read off the day numbers. -/
theorem yearday_mem_map (n : Nat) (ys : List Yearday) :
    (⟨n⟩ : Yearday) ∈ ys ↔ n ∈ ys.map Yearday.val := by
  simp only [List.mem_map]
  constructor
  · intro h; exact ⟨⟨n⟩, h, rfl⟩
  · rintro ⟨⟨a⟩, ha, he⟩; cases he; exact ha

/-- Spec-level matching predicate, written from the specification's
wording: `Daily` always, `Weekly` by weekday, `Monthly` by day of month,
`Yearly` by day of year, `Once` by date, `RelativeMonthly` by weekday plus
the forward/backward occurrence index. -/
def specMatchesB (r : Recurrence) (d : Date) : Bool :=
  match r with
  | .daily => true
  | .weekly ws => decide (d.weekday ∈ ws)
  | .monthly ms => decide (d.day ∈ ms.map Monthday.val)
  | .yearly ys => decide (d.ordinal ∈ ys.map Yearday.val)
  | .once ds => decide (d ∈ ds)
  | .relativeMonthly ws idx =>
    decide (d.weekday ∈ ws) &&
      (match idx with
       | .first => (d.day - 1) / 7 == 0
       | .second => (d.day - 1) / 7 == 1
       | .third => (d.day - 1) / 7 == 2
       | .fourth => (d.day - 1) / 7 == 3
       | .last => (daysInMonth d.year d.month - d.day) / 7 == 0)

/-- On every valid date `Recurrence::matches` runs without panicking and
returns exactly the spec-level predicate. -/
theorem matchesOpt_eq_spec (r : Recurrence) (d : Date) (h : d.Valid) :
    r.matchesOpt d = some (specMatchesB r d) := by
  obtain ⟨h1, h2, h3, h4⟩ := h
  cases r with
  | daily => rfl
  | weekly ws => rfl
  | once ds => rfl
  | monthly ms =>
    have hday : d.day ≤ 31 := le_trans h4 (daysInMonth_le_31 d.year d.month)
    have hcond : (d.day > 0 && d.day < 32) = true := by
      simp only [Bool.and_eq_true, decide_eq_true_eq]; omega
    simp only [Recurrence.matchesOpt, Monthday.tryFrom, hcond, if_true,
      specMatchesB, Option.some.injEq, decide_eq_decide]
    exact monthday_mem_map d.day ms
  | yearly ys =>
    have hord := ordinal_bounds d ⟨h1, h2, h3, h4⟩
    have hcond : (d.ordinal > 0 && d.ordinal < 367) = true := by
      simp only [Bool.and_eq_true, decide_eq_true_eq]; omega
    simp only [Recurrence.matchesOpt, Yearday.tryFrom, hcond, if_true,
      specMatchesB, Option.some.injEq, decide_eq_decide]
    exact yearday_mem_map d.ordinal ys
  | relativeMonthly ws idx =>
    have hnd : Month.num_days ⟨d.year, d.month⟩ = daysInMonth d.year d.month :=
      num_days_eq_daysInMonth d.year d.month h1 h2
    by_cases hw : d.weekday ∈ ws
    · simp [Recurrence.matchesOpt, specMatchesB, hw, Month.fromDate,
        Date.day0, hnd]
    · simp [Recurrence.matchesOpt, specMatchesB, hw]

/-- Closed form of `Monthday.tryFrom`. -/
theorem monthday_tryFrom_eq (n : Nat) :
    Monthday.tryFrom n =
      if 1 ≤ n ∧ n ≤ 31 then .ok ⟨n⟩
      else .error ("Invalid month day " ++ toString n) := by
  unfold Monthday.tryFrom
  by_cases h : n > 0 && n < 32
  · rw [if_pos h, if_pos (by revert h; simp; omega)]
  · rw [if_neg h, if_neg (by revert h; simp; omega)]

/-- Closed form of `Yearday.tryFrom`. -/
theorem yearday_tryFrom_eq (n : Nat) :
    Yearday.tryFrom n =
      if 1 ≤ n ∧ n ≤ 366 then .ok ⟨n⟩
      else .error ("Invalid year day " ++ toString n) := by
  unfold Yearday.tryFrom
  by_cases h : n > 0 && n < 367
  · rw [if_pos h, if_pos (by revert h; simp; omega)]
  · rw [if_neg h, if_neg (by revert h; simp; omega)]

/-! ## Claim C5: range checking of `Monthday` / `Yearday` -/

/-- C5: `Monthday` construction succeeds exactly for `1 ≤ n ≤ 31` and
`Yearday` construction exactly for `1 ≤ n ≤ 366`; a successful conversion
keeps the value unchanged (never clamped) and an out-of-range value is an
error.  In particular 0 and 32 (resp. 0 and 367) fail while 31
(resp. 366) succeeds. -/
theorem monthday_yearday_range_check :
    (∀ n : Nat,
      Monthday.tryFrom n =
        if 1 ≤ n ∧ n ≤ 31 then .ok ⟨n⟩
        else .error ("Invalid month day " ++ toString n))
    ∧ (∀ n : Nat,
      Yearday.tryFrom n =
        if 1 ≤ n ∧ n ≤ 366 then .ok ⟨n⟩
        else .error ("Invalid year day " ++ toString n))
    ∧ (Monthday.tryFrom 0).isOk = false ∧ (Monthday.tryFrom 32).isOk = false
    ∧ (Monthday.tryFrom 31).isOk = true
    ∧ (Yearday.tryFrom 0).isOk = false ∧ (Yearday.tryFrom 367).isOk = false
    ∧ (Yearday.tryFrom 366).isOk = true :=
  ⟨monthday_tryFrom_eq, yearday_tryFrom_eq, rfl, rfl, rfl, rfl, rfl, rfl⟩

/-! ## Claim C2: `Recurrence::matches` per frequency -/

/-- C2: on every valid date, `matches` returns true for `Daily`; for
`Weekly(set)` iff the date's weekday is in the set; for `Monthly(set)` iff
the day of month is in the set; for `Yearly(set)` iff the leap-aware day
of year is in the set; for `Once(set)` iff the date itself is in the set
(`some` means no panic occurred). -/
theorem matches_per_frequency (d : Date) (h : d.Valid) :
    Recurrence.daily.matchesOpt d = some true
    ∧ (∀ ws, (Recurrence.weekly ws).matchesOpt d
        = some (decide (d.weekday ∈ ws)))
    ∧ (∀ ms, (Recurrence.monthly ms).matchesOpt d
        = some (decide (d.day ∈ ms.map Monthday.val)))
    ∧ (∀ ys, (Recurrence.yearly ys).matchesOpt d
        = some (decide (d.ordinal ∈ ys.map Yearday.val)))
    ∧ (∀ ds, (Recurrence.once ds).matchesOpt d
        = some (decide (d ∈ ds))) :=
  ⟨matchesOpt_eq_spec .daily d h,
   fun ws => matchesOpt_eq_spec (.weekly ws) d h,
   fun ms => matchesOpt_eq_spec (.monthly ms) d h,
   fun ys => matchesOpt_eq_spec (.yearly ys) d h,
   fun ds => matchesOpt_eq_spec (.once ds) d h⟩

/-- C2 witness: `Yearly([32])` matches 2026-02-01 (day 32 of a non-leap
year) and not 2026-02-02. -/
theorem matches_per_frequency_witness :
    (Recurrence.yearly [⟨32⟩]).matchesOpt ⟨2026, 2, 1⟩ = some true
    ∧ (Recurrence.yearly [⟨32⟩]).matchesOpt ⟨2026, 2, 2⟩ = some false := by
  constructor
  · rw [(matches_per_frequency ⟨2026, 2, 1⟩ (by decide)).2.2.2.1 [⟨32⟩]]
    decide
  · rw [(matches_per_frequency ⟨2026, 2, 2⟩ (by decide)).2.2.2.1 [⟨32⟩]]
    decide

/-! ## Claim C3: the relative-monthly rule -/

/-- C3: on every valid date, `RelativeMonthly(weekdays, index)` matches
iff the weekday is in the set and the occurrence index fits: forward index
`(day - 1) / 7` equals 0..3 for `First`..`Fourth`, and `Last` requires the
backward index `(days_in_month - day) / 7` to be 0. -/
theorem relative_monthly_matches (d : Date) (h : d.Valid) (ws : List Weekday)
    (idx : WeekIndex) :
    (Recurrence.relativeMonthly ws idx).matchesOpt d =
      some (decide (d.weekday ∈ ws) &&
        (match idx with
         | .first => (d.day - 1) / 7 == 0
         | .second => (d.day - 1) / 7 == 1
         | .third => (d.day - 1) / 7 == 2
         | .fourth => (d.day - 1) / 7 == 3
         | .last => (daysInMonth d.year d.month - d.day) / 7 == 0)) :=
  matchesOpt_eq_spec (.relativeMonthly ws idx) d h

/-- C3 witness: `RelativeMonthly([Sunday], Last)` matches 2026-02-22 (the
last Sunday of that February) and `RelativeMonthly([Sunday, Monday],
First)` does not match 2026-02-08 (a second occurrence). -/
theorem relative_monthly_matches_witness :
    (Recurrence.relativeMonthly [.sun] .last).matchesOpt ⟨2026, 2, 22⟩
      = some true
    ∧ (Recurrence.relativeMonthly [.sun, .mon] .first).matchesOpt
        ⟨2026, 2, 8⟩ = some false := by
  constructor
  · rw [relative_monthly_matches ⟨2026, 2, 22⟩ (by decide) [.sun] .last]
    decide
  · rw [relative_monthly_matches ⟨2026, 2, 8⟩ (by decide) [.sun, .mon] .first]
    decide

/-! ## Claim C10: totality of `Recurrence::matches` on valid dates -/

/-- C10: `Recurrence::matches` never panics on a valid calendar date: the
`Monthday`/`Yearday` conversions inside the `Monthly`/`Yearly` arms always
succeed because a valid date has day-of-month in `[1, 31]` and day-of-year
in `[1, 366]`. -/
theorem matches_total_on_valid_dates (r : Recurrence) (d : Date)
    (h : d.Valid) : (r.matchesOpt d).isSome = true := by
  rw [matchesOpt_eq_spec r d h]; rfl

/-- C10 witness: a `Monthly` and a `Yearly` rule evaluated on the last day
of a leap-year February both return a value. -/
theorem matches_total_on_valid_dates_witness :
    ((Recurrence.monthly [⟨29⟩]).matchesOpt ⟨2024, 2, 29⟩).isSome = true
    ∧ ((Recurrence.yearly [⟨366⟩]).matchesOpt ⟨2024, 12, 31⟩).isSome
        = true :=
  ⟨matches_total_on_valid_dates (.monthly [⟨29⟩]) ⟨2024, 2, 29⟩ (by decide),
   matches_total_on_valid_dates (.yearly [⟨366⟩]) ⟨2024, 12, 31⟩ (by decide)⟩

/-! ## Claim C1: construction-time validation of recurrence records -/

/-- Success of the collected `Monthday` conversions is exactly an
in-range condition. -/
theorem collectMonthdays_ok_iff (l : List Nat) :
    (collectMonthdays l).isOk = true ↔ ∀ n ∈ l, 1 ≤ n ∧ n ≤ 31 := by
  induction l with
  | nil => simp [collectMonthdays, Except.isOk, Except.toBool]
  | cons n rest ih =>
    simp only [collectMonthdays, monthday_tryFrom_eq n]
    by_cases hn : 1 ≤ n ∧ n ≤ 31
    · rw [if_pos hn]
      cases hcr : collectMonthdays rest with
      | error e =>
        rw [hcr] at ih
        constructor
        · intro hcontr; exact Bool.noConfusion hcontr
        · intro hall
          have hcontr := ih.mpr fun x hx => hall x (List.mem_cons_of_mem n hx)
          exact Bool.noConfusion hcontr
      | ok ms =>
        rw [hcr] at ih
        constructor
        · intro _ x hx
          rcases List.mem_cons.mp hx with h | h
          · exact h ▸ hn
          · exact ih.mp rfl x h
        · intro _; rfl
    · rw [if_neg hn]
      constructor
      · intro hcontr; exact Bool.noConfusion hcontr
      · intro h; exact absurd (h n (List.mem_cons_self n rest)) hn

/-- A failing `Monthday` collection reports the first out-of-range value
by name. -/
theorem collectMonthdays_error (l : List Nat) (e : String)
    (h : collectMonthdays l = .error e) :
    ∃ n ∈ l, ¬(1 ≤ n ∧ n ≤ 31) ∧ e = "Invalid month day " ++ toString n := by
  induction l with
  | nil => cases h
  | cons n rest ih =>
    simp only [collectMonthdays, monthday_tryFrom_eq n] at h
    by_cases hn : 1 ≤ n ∧ n ≤ 31
    · rw [if_pos hn] at h
      cases hcr : collectMonthdays rest with
      | error e' =>
        rw [hcr] at h
        injection h with h'
        subst h'
        obtain ⟨x, hx, hr, he⟩ := ih hcr
        exact ⟨x, List.mem_cons_of_mem n hx, hr, he⟩
      | ok ms => rw [hcr] at h; cases h
    · rw [if_neg hn] at h
      injection h with h'
      exact ⟨n, List.mem_cons_self n rest, hn, h'.symm⟩

/-- Success of the collected `Yearday` conversions is exactly an in-range
condition. -/
theorem collectYeardays_ok_iff (l : List Nat) :
    (collectYeardays l).isOk = true ↔ ∀ n ∈ l, 1 ≤ n ∧ n ≤ 366 := by
  induction l with
  | nil => simp [collectYeardays, Except.isOk, Except.toBool]
  | cons n rest ih =>
    simp only [collectYeardays, yearday_tryFrom_eq n]
    by_cases hn : 1 ≤ n ∧ n ≤ 366
    · rw [if_pos hn]
      cases hcr : collectYeardays rest with
      | error e =>
        rw [hcr] at ih
        constructor
        · intro hcontr; exact Bool.noConfusion hcontr
        · intro hall
          have hcontr := ih.mpr fun x hx => hall x (List.mem_cons_of_mem n hx)
          exact Bool.noConfusion hcontr
      | ok ms =>
        rw [hcr] at ih
        constructor
        · intro _ x hx
          rcases List.mem_cons.mp hx with h | h
          · exact h ▸ hn
          · exact ih.mp rfl x h
        · intro _; rfl
    · rw [if_neg hn]
      constructor
      · intro hcontr; exact Bool.noConfusion hcontr
      · intro h; exact absurd (h n (List.mem_cons_self n rest)) hn

/-- A failing `Yearday` collection reports the first out-of-range value
by name. -/
theorem collectYeardays_error (l : List Nat) (e : String)
    (h : collectYeardays l = .error e) :
    ∃ n ∈ l, ¬(1 ≤ n ∧ n ≤ 366) ∧ e = "Invalid year day " ++ toString n := by
  induction l with
  | nil => cases h
  | cons n rest ih =>
    simp only [collectYeardays, yearday_tryFrom_eq n] at h
    by_cases hn : 1 ≤ n ∧ n ≤ 366
    · rw [if_pos hn] at h
      cases hcr : collectYeardays rest with
      | error e' =>
        rw [hcr] at h
        injection h with h'
        subst h'
        obtain ⟨x, hx, hr, he⟩ := ih hcr
        exact ⟨x, List.mem_cons_of_mem n hx, hr, he⟩
      | ok ms => rw [hcr] at h; cases h
    · rw [if_neg hn] at h
      injection h with h'
      exact ⟨n, List.mem_cons_self n rest, hn, h'.symm⟩

/-- Spec-level acceptance condition for a loose recurrence record, after
amendment: per frequency, exactly the allowed fields non-empty and the
required one present, day values in range; for a monthly record a
non-empty `weekdays` always selects the relative-monthly form (whatever
`monthdays` holds), and the `index` field is never validated. -/
def recurrenceAllowed (s : SerdeRecurrence) : Prop :=
  match s.frequency with
  | .daily =>
    s.weekdays = [] ∧ s.monthdays = [] ∧ s.yeardays = [] ∧ s.dates = []
  | .weekly =>
    s.monthdays = [] ∧ s.yeardays = [] ∧ s.dates = [] ∧ s.weekdays ≠ []
  | .monthly =>
    s.yeardays = [] ∧ s.dates = []
      ∧ (s.weekdays ≠ []
         ∨ (s.monthdays ≠ [] ∧ ∀ n ∈ s.monthdays, 1 ≤ n ∧ n ≤ 31))
  | .yearly =>
    s.weekdays = [] ∧ s.monthdays = [] ∧ s.dates = [] ∧ s.yeardays ≠ []
      ∧ ∀ n ∈ s.yeardays, 1 ≤ n ∧ n ≤ 366
  | .once =>
    s.weekdays = [] ∧ s.monthdays = [] ∧ s.yeardays = [] ∧ s.dates ≠ []

/-- Spec-level description of the rejection messages: every error names
the offending field (or out-of-range value) of the record. -/
def errorNamesOffender (s : SerdeRecurrence) (e : String) : Prop :=
  match s.frequency with
  | .daily =>
    (e = "`weekdays` not allowed for daily recurrence" ∧ s.weekdays ≠ [])
    ∨ (e = "`monthdays` not allowed for daily recurrence" ∧ s.monthdays ≠ [])
    ∨ (e = "`yeardays` not allowed for daily recurrence" ∧ s.yeardays ≠ [])
    ∨ (e = "`dates` not allowed for daily recurrence" ∧ s.dates ≠ [])
  | .weekly =>
    (e = "`monthdays` not allowed for weekly recurrence" ∧ s.monthdays ≠ [])
    ∨ (e = "`yeardays` not allowed for weekly recurrence" ∧ s.yeardays ≠ [])
    ∨ (e = "`dates` not allowed for weekly recurrence" ∧ s.dates ≠ [])
    ∨ (e = "`weekdays` must be specified" ∧ s.weekdays = [])
  | .monthly =>
    (e = "`yeardays` not allowed for monthly recurrence" ∧ s.yeardays ≠ [])
    ∨ (e = "`dates` not allowed for monthly recurrence" ∧ s.dates ≠ [])
    ∨ (e = "Either `monthdays` or `weekdays` must be specified"
       ∧ s.weekdays = [] ∧ s.monthdays = [])
    ∨ (∃ n ∈ s.monthdays, ¬(1 ≤ n ∧ n ≤ 31)
       ∧ e = "Invalid month day " ++ toString n)
  | .yearly =>
    (e = "`weekdays` not allowed for yearly recurrence" ∧ s.weekdays ≠ [])
    ∨ (e = "`monthdays` not allowed for yearly recurrence" ∧ s.monthdays ≠ [])
    ∨ (e = "`dates` not allowed for yearly recurrence" ∧ s.dates ≠ [])
    ∨ (e = "`yeardays` must be specified" ∧ s.yeardays = [])
    ∨ (∃ n ∈ s.yeardays, ¬(1 ≤ n ∧ n ≤ 366)
       ∧ e = "Invalid year day " ++ toString n)
  | .once =>
    (e = "`weekdays` not allowed for once recurrence" ∧ s.weekdays ≠ [])
    ∨ (e = "`monthdays` not allowed for once recurrence" ∧ s.monthdays ≠ [])
    ∨ (e = "`yeardays` not allowed for once recurrence" ∧ s.yeardays ≠ [])
    ∨ (e = "`dates` must be specified" ∧ s.dates = [])

/-- C1 (amended): conversion of a loose recurrence record succeeds exactly
under `recurrenceAllowed` — in particular a monthly record supplying both
`monthdays` and `weekdays` is accepted as a relative-monthly rule rather
than rejected — and every rejection carries an error naming the offending
field or value. -/
theorem recurrence_construction_validation (s : SerdeRecurrence) :
    ((Recurrence.tryFrom s).isOk = true ↔ recurrenceAllowed s)
    ∧ ∀ e, Recurrence.tryFrom s = .error e → errorNamesOffender s e := by
  obtain ⟨f, w, md, yd, dt, idx⟩ := s
  cases f
  case daily =>
    simp only [Recurrence.tryFrom, recurrenceAllowed, errorNamesOffender]
    split_ifs with h1 h2 h3 h4 <;> simp_all [Except.isOk, Except.toBool]
  case weekly =>
    simp only [Recurrence.tryFrom, recurrenceAllowed, errorNamesOffender]
    split_ifs with h1 h2 h3 h4 <;> simp_all [Except.isOk, Except.toBool]
  case monthly =>
    simp only [Recurrence.tryFrom, recurrenceAllowed, errorNamesOffender]
    split_ifs with h1 h2 h3 h4
    · simp_all [Except.isOk, Except.toBool]
    · simp_all [Except.isOk, Except.toBool]
    · simp_all [Except.isOk, Except.toBool]
    · cases hcm : collectMonthdays md with
      | ok ms =>
        have hall := (collectMonthdays_ok_iff md).mp (by rw [hcm]; rfl)
        simp_all [Except.isOk, Except.toBool]
      | error e' =>
        obtain ⟨n, hn, hrange, he⟩ := collectMonthdays_error md e' hcm
        constructor
        · simp only [Except.isOk, Except.toBool, Bool.false_eq_true, false_iff]
          rintro ⟨-, -, hw | ⟨-, hall⟩⟩
          · exact hw h3
          · exact hrange (hall n hn)
        · intro e he'
          injection he' with he''
          exact Or.inr (Or.inr (Or.inr ⟨n, hn, hrange, he'' ▸ he⟩))
    · simp_all [Except.isOk, Except.toBool]
  case yearly =>
    simp only [Recurrence.tryFrom, recurrenceAllowed, errorNamesOffender]
    split_ifs with h1 h2 h3 h4
    · simp_all [Except.isOk, Except.toBool]
    · simp_all [Except.isOk, Except.toBool]
    · simp_all [Except.isOk, Except.toBool]
    · simp_all [Except.isOk, Except.toBool]
    · cases hcy : collectYeardays yd with
      | ok ys =>
        have hall := (collectYeardays_ok_iff yd).mp (by rw [hcy]; rfl)
        simp_all [Except.isOk, Except.toBool]
      | error e' =>
        obtain ⟨n, hn, hrange, he⟩ := collectYeardays_error yd e' hcy
        constructor
        · simp only [Except.isOk, Except.toBool, Bool.false_eq_true, false_iff]
          rintro ⟨-, -, -, -, hall⟩
          exact hrange (hall n hn)
        · intro e he'
          injection he' with he''
          exact Or.inr (Or.inr (Or.inr (Or.inr ⟨n, hn, hrange, he'' ▸ he⟩)))
  case once =>
    simp only [Recurrence.tryFrom, recurrenceAllowed, errorNamesOffender]
    split_ifs with h1 h2 h3 h4 <;> simp_all [Except.isOk, Except.toBool]

/-- C1 witness: a well-formed weekly record is accepted, and a daily
record with a stray `monthdays` field is rejected with the message naming
`monthdays`. -/
theorem recurrence_construction_validation_witness :
    recurrenceAllowed { frequency := .weekly, weekdays := [.mon] }
    ∧ errorNamesOffender { frequency := .daily, monthdays := [1] }
        "`monthdays` not allowed for daily recurrence" := by
  constructor
  · exact (recurrence_construction_validation
      { frequency := .weekly, weekdays := [.mon] }).1.mp rfl
  · exact (recurrence_construction_validation
      { frequency := .daily, monthdays := [1] }).2 _ rfl

/-- C1 counterexample: a monthly record supplying both `monthdays` and
`weekdays` is not rejected — it converts successfully to a
relative-monthly rule and the `monthdays` field is silently ignored. -/
theorem recurrence_monthly_both_fields_accepted :
    Recurrence.tryFrom
        { frequency := .monthly, weekdays := [.mon], monthdays := [1] }
      = .ok (.relativeMonthly [.mon] .first) := rfl

/-! ## Claim C4: event-level filtering -/

/-- C4: `Event::matches` is false outside the validity range, false inside
any exception range, and otherwise equals the recurrence match; and
`DateRange::contains` holds exactly when each present bound (inclusive)
admits the date. -/
theorem event_matches_filters (ev : Event) (d : Date) (h : d.Valid) :
    ev.matchesOpt d
      = some (ev.validity.containsB d
          && ev.exceptions.all (fun x => !x.containsB d)
          && specMatchesB ev.recurrence d)
    ∧ ∀ dr : DateRange,
        dr.containsB d = true ↔
          ((∀ f, dr.fromDate = some f → f.leb d = true)
           ∧ ∀ t, dr.toDate = some t → d.leb t = true) := by
  constructor
  · unfold Event.matchesOpt
    cases hv : ev.validity.containsB d with
    | false => simp
    | true =>
      cases ha : ev.exceptions.any (fun x => x.containsB d) with
      | true =>
        have hall : ev.exceptions.all (fun x => !x.containsB d) = false := by
          rcases List.any_eq_true.mp ha with ⟨x, hx, hcx⟩
          refine List.all_eq_false.mpr ⟨x, hx, ?_⟩
          simp [hcx]
        simp [hall]
      | false =>
        have hall : ev.exceptions.all (fun x => !x.containsB d) = true := by
          refine List.all_eq_true.mpr fun x hx => ?_
          have := List.any_eq_false.mp ha x hx
          simp [this]
        simp [hall, matchesOpt_eq_spec ev.recurrence d h]
  · intro dr
    unfold DateRange.containsB
    cases hf : dr.fromDate <;> cases ht : dr.toDate <;>
      simp [Bool.and_eq_true]

/-- C4 witness: a `Daily` event valid through January 2025 does not match
2025-02-01 even though `Daily` always matches. -/
theorem event_matches_filters_witness :
    ({ recurrence := .daily,
       validity := { fromDate := some ⟨2025, 1, 1⟩,
                     toDate := some ⟨2025, 1, 31⟩ } } : Event).matchesOpt
      ⟨2025, 2, 1⟩ = some false := by
  rw [(event_matches_filters
    { recurrence := .daily,
      validity := { fromDate := some ⟨2025, 1, 1⟩,
                    toDate := some ⟨2025, 1, 31⟩ } }
    ⟨2025, 2, 1⟩ (by decide)).1]
  decide

/-! ## `src/src/page.rs`: the older document model and its merge (claim C9) -/

namespace Core

/-- Model of `Property` from `src/src/page/property.rs`. -/
structure Property where
  key : String
  value : String
deriving DecidableEq, Repr

/-- Model of `Property::update`: replaces the value when the keys agree. -/
def Property.update (self rhs : Property) : Property :=
  if self.key = rhs.key then { self with value := rhs.value } else self

/-- Model of `CodeBlock` from `src/src/page.rs`. -/
structure CodeBlock where
  kind : String
  code : String
deriving DecidableEq, Repr

/-- Model of `Entry` from `src/src/page.rs`. -/
inductive Entry
  | line (s : String)
  | codeBlock (b : CodeBlock)
deriving DecidableEq, Repr

/-- Model of `Content` from `src/src/page.rs`. -/
structure Content where
  properties : List Property := []
  entries : List Entry := []
deriving DecidableEq, Repr

/-- The `iter_mut().find(..).update(..)` step of `Add for Content`:
update the first property with a matching key. -/
def replaceFirst : List Property → Property → List Property
  | [], _ => []
  | q :: rest, p =>
    if q.key = p.key then q.update p :: rest else q :: replaceFirst rest p

/-- One fold step of the property merge: update the first matching key if
present, otherwise push. -/
def addPropertyStep (tgt : List Property) (p : Property) : List Property :=
  if tgt.any (fun q => q.key == p.key) then replaceFirst tgt p
  else tgt ++ [p]

/-- One fold step of the entry merge: push only when no structurally
equal entry is present (`iter().all(|l| *l != line)`). -/
def addEntryStep (tgt : List Entry) (e : Entry) : List Entry :=
  if tgt.all (fun l => l != e) then tgt ++ [e] else tgt

/-- Model of `Add for Content` from `src/src/page.rs`. -/
def Content.add (self rhs : Content) : Content :=
  { properties := rhs.properties.foldl addPropertyStep self.properties,
    entries := rhs.entries.foldl addEntryStep self.entries }

/-- Spec-level result of the entry merge: the rhs entries that are not
already structurally present (in the target or earlier in rhs), in
order. -/
def specNewEntries (tgt : List Entry) : List Entry → List Entry
  | [] => []
  | e :: rest =>
    if e ∈ tgt then specNewEntries tgt rest
    else e :: specNewEntries (tgt ++ [e]) rest

/-- Spec-level fresh keys contributed by the rhs properties: first
occurrence order, keys already seen skipped. -/
def specFreshKeys : List String → List Property → List String
  | _, [] => []
  | seen, p :: rest =>
    if p.key ∈ seen then specFreshKeys seen rest
    else p.key :: specFreshKeys (seen ++ [p.key]) rest

/-- First value stored under a key. -/
def lookupVal : List Property → String → Option String
  | [], _ => none
  | p :: rest, k => if p.key = k then some p.value else lookupVal rest k

/-- Last value a property list writes to a key ("last writer wins"). -/
def lastVal : List Property → String → Option String
  | [], _ => none
  | p :: rest, k =>
    match lastVal rest k with
    | some v => some v
    | none => if p.key = k then some p.value else none

/-- The key sequence of a property list. -/
def keysOf (ps : List Property) : List String := ps.map Property.key

theorem addEntryStep_eq (tgt : List Entry) (e : Entry) :
    addEntryStep tgt e = if e ∈ tgt then tgt else tgt ++ [e] := by
  unfold addEntryStep
  by_cases h : e ∈ tgt
  · rw [if_pos h, if_neg]
    simp only [List.all_eq_true, bne_iff_ne, ne_eq, not_forall]
    exact ⟨e, h, by simp⟩
  · rw [if_neg h, if_pos]
    simp only [List.all_eq_true, bne_iff_ne, ne_eq]
    exact fun l hl hle => h (hle ▸ hl)

theorem addEntries_eq (rhs tgt : List Entry) :
    rhs.foldl addEntryStep tgt = tgt ++ specNewEntries tgt rhs := by
  induction rhs generalizing tgt with
  | nil => simp [specNewEntries]
  | cons e rest ih =>
    simp only [List.foldl_cons, specNewEntries, addEntryStep_eq]
    by_cases he : e ∈ tgt
    · rw [if_pos he, if_pos he, ih]
    · rw [if_neg he, if_neg he, ih (tgt ++ [e])]
      simp

theorem keysOf_replaceFirst (tgt : List Property) (p : Property) :
    keysOf (replaceFirst tgt p) = keysOf tgt := by
  induction tgt with
  | nil => rfl
  | cons q rest ih =>
    unfold replaceFirst
    by_cases h : q.key = p.key
    · rw [if_pos h]
      simp [keysOf, Property.update, h]
    · rw [if_neg h]
      simp only [keysOf, List.map_cons] at ih ⊢
      rw [ih]

theorem any_key_iff (tgt : List Property) (k : String) :
    (tgt.any fun q => q.key == k) = true ↔ k ∈ keysOf tgt := by
  simp [List.any_eq_true, keysOf, List.mem_map]

theorem keysOf_step (tgt : List Property) (p : Property) :
    keysOf (addPropertyStep tgt p)
      = if p.key ∈ keysOf tgt then keysOf tgt else keysOf tgt ++ [p.key] := by
  unfold addPropertyStep
  by_cases h : p.key ∈ keysOf tgt
  · rw [if_pos ((any_key_iff tgt p.key).mpr h), if_pos h,
      keysOf_replaceFirst]
  · rw [if_neg (fun hc => h ((any_key_iff tgt p.key).mp hc)), if_neg h]
    simp [keysOf]

theorem lookup_replaceFirst_self (tgt : List Property) (p : Property)
    (h : p.key ∈ keysOf tgt) :
    lookupVal (replaceFirst tgt p) p.key = some p.value := by
  induction tgt with
  | nil => cases h
  | cons q rest ih =>
    unfold replaceFirst
    by_cases hq : q.key = p.key
    · rw [if_pos hq]
      unfold lookupVal Property.update
      rw [if_pos hq]
      simp [hq]
    · rw [if_neg hq]
      unfold lookupVal
      rw [if_neg hq]
      rcases List.mem_cons.mp h with h' | h'
      · exact absurd h'.symm hq
      · exact ih h'

theorem lookup_replaceFirst_other (tgt : List Property) (p : Property)
    (k : String) (h : p.key ≠ k) :
    lookupVal (replaceFirst tgt p) k = lookupVal tgt k := by
  induction tgt with
  | nil => rfl
  | cons q rest ih =>
    unfold replaceFirst
    by_cases hq : q.key = p.key
    · rw [if_pos hq]
      unfold lookupVal Property.update
      rw [if_pos hq]
      simp only
      rw [if_neg (hq ▸ h), if_neg (hq ▸ h)]
    · rw [if_neg hq]
      unfold lookupVal
      by_cases hk : q.key = k
      · rw [if_pos hk, if_pos hk]
      · rw [if_neg hk, if_neg hk, ih]

theorem lookupVal_eq_none_of_not_mem (tgt : List Property) (k : String)
    (h : k ∉ keysOf tgt) : lookupVal tgt k = none := by
  induction tgt with
  | nil => rfl
  | cons q rest ih =>
    unfold lookupVal
    rw [if_neg fun hq => h (by simp [keysOf, hq]), ih]
    intro hc
    exact h (by simp [keysOf] at hc ⊢; exact Or.inr hc)

theorem lookup_append (tgt : List Property) (p : Property) (k : String) :
    lookupVal (tgt ++ [p]) k =
      match lookupVal tgt k with
      | some v => some v
      | none => if p.key = k then some p.value else none := by
  induction tgt with
  | nil => rfl
  | cons q rest ih =>
    simp only [List.cons_append]
    unfold lookupVal
    by_cases hq : q.key = k
    · rw [if_pos hq, if_pos hq]
    · rw [if_neg hq, if_neg hq, ih]

theorem lookup_step (tgt : List Property) (p : Property) (k : String) :
    lookupVal (addPropertyStep tgt p) k =
      if p.key = k then some p.value else lookupVal tgt k := by
  unfold addPropertyStep
  by_cases hmem : p.key ∈ keysOf tgt
  · rw [if_pos ((any_key_iff tgt p.key).mpr hmem)]
    by_cases hpk : p.key = k
    · subst hpk
      rw [if_pos rfl]
      exact lookup_replaceFirst_self tgt p hmem
    · rw [if_neg hpk]
      exact lookup_replaceFirst_other tgt p k hpk
  · rw [if_neg (fun hc => hmem ((any_key_iff tgt p.key).mp hc)),
      lookup_append]
    by_cases hpk : p.key = k
    · subst hpk
      rw [lookupVal_eq_none_of_not_mem tgt p.key hmem]
    · rw [if_neg hpk]
      cases hl : lookupVal tgt k <;> simp [hpk]

theorem addProps_lookup (rhs tgt : List Property) (k : String) :
    lookupVal (rhs.foldl addPropertyStep tgt) k =
      match lastVal rhs k with
      | some v => some v
      | none => lookupVal tgt k := by
  induction rhs generalizing tgt with
  | nil => rfl
  | cons p rest ih =>
    simp only [List.foldl_cons]
    rw [ih (addPropertyStep tgt p), lookup_step]
    cases hl : lastVal rest k with
    | some v =>
      rw [show lastVal (p :: rest) k = some v by unfold lastVal; rw [hl]]
    | none =>
      rw [show lastVal (p :: rest) k
            = (if p.key = k then some p.value else none) by
          unfold lastVal; rw [hl]]
      by_cases hpk : p.key = k
      · rw [if_pos hpk, if_pos hpk]
      · rw [if_neg hpk, if_neg hpk]

theorem addProps_keys (rhs tgt : List Property) :
    keysOf (rhs.foldl addPropertyStep tgt)
      = keysOf tgt ++ specFreshKeys (keysOf tgt) rhs := by
  induction rhs generalizing tgt with
  | nil => simp [specFreshKeys]
  | cons p rest ih =>
    simp only [List.foldl_cons, specFreshKeys]
    by_cases hk : p.key ∈ keysOf tgt
    · rw [if_pos hk, ih (addPropertyStep tgt p), keysOf_step, if_pos hk]
    · rw [if_neg hk, ih (addPropertyStep tgt p), keysOf_step, if_neg hk]
      simp

end Core

/-- C9: merging two documents folds properties with last-writer-wins per
key (an existing key keeps its place and receives the rhs value;
brand-new keys are appended in first-occurrence order) and folds entries
by appending only those rhs entries with no structurally equal entry
already present, preserving the target's order. -/
theorem content_merge_semantics (tgt rhs : Core.Content) :
    (tgt.add rhs).entries
      = tgt.entries ++ Core.specNewEntries tgt.entries rhs.entries
    ∧ Core.keysOf (tgt.add rhs).properties
      = Core.keysOf tgt.properties
        ++ Core.specFreshKeys (Core.keysOf tgt.properties) rhs.properties
    ∧ ∀ k, Core.lookupVal (tgt.add rhs).properties k =
        (match Core.lastVal rhs.properties k with
         | some v => some v
         | none => Core.lookupVal tgt.properties k) :=
  ⟨Core.addEntries_eq rhs.entries tgt.entries,
   Core.addProps_keys rhs.properties tgt.properties,
   fun k => Core.addProps_lookup rhs.properties tgt.properties k⟩

/-! ## `src/preparer/src/page/content.rs` and `src/utils/src/page.rs`:
the current document model (claims C6, C7, C8)

Rust strings are modelled as `List Char` so that line splitting is
structural.  The YAML front-matter encode/decode is supplied by the
external `saphyr` crate; only the flat fragment the spec describes is
modelled (see `kvLine` / `splitKV`). -/

namespace Prep

/-- A Rust `String`, as a character list. -/
abbrev Str := List Char

/-- Split a text at every newline character; a full split, so joining the
parts with newlines gives back the text. -/
def splitNl : Str → List Str
  | [] => [[]]
  | c :: rest =>
    if c = '\n' then [] :: splitNl rest
    else
      match splitNl rest with
      | [] => [[c]]
      | l :: ls => (c :: l) :: ls

/-- Strip one trailing carriage return, as Rust's `str::lines` does per
line. -/
def stripCR (l : Str) : Str :=
  if l.getLast? = some '\r' then l.dropLast else l

/-- Rust `str::lines`: split at newlines, drop the final empty piece left
by a trailing newline, strip one trailing `\r` per line. -/
def rustLines (s : Str) : List Str :=
  let parts := splitNl s
  (if parts.getLast? = some [] then parts.dropLast else parts).map stripCR

/-- Join lines with a newline separator (no trailing newline), the shape
of the modelled YAML emitter output. -/
def joinNl : List Str → Str
  | [] => []
  | [l] => l
  | l :: rest => l ++ '\n' :: joinNl rest

/-- Join lines, each terminated by a newline (the shape `writeln!`
produces). -/
def unlinesL (ls : List Str) : Str :=
  ls.foldr (fun l acc => l ++ '\n' :: acc) []

/-- Model of `CodeBlock` as used by the preparer `Content`: a kind tag plus the
verbatim body. -/
structure CodeBlock where
  kind : Str
  code : Str
deriving DecidableEq, Repr

/-- Model of `Entry`: a plain line or a fenced code block. -/
inductive Entry
  | line (s : Str)
  | codeBlock (b : CodeBlock)
deriving DecidableEq, Repr

/-- Model of `Entry::is_empty`. -/
def Entry.isEmptyB : Entry → Bool
  | .line s => s.isEmpty
  | .codeBlock b => b.code.isEmpty

/-- The preparer `Content`: the front-matter mapping (insertion-ordered,
string keys and values — the fragment reachable from the mutation API)
plus the ordered entry list. -/
structure Content where
  properties : List (Str × Str) := []
  entries : List Entry := []
deriving DecidableEq, Repr

/-- Insert into the insertion-ordered mapping: an existing key keeps its
position and receives the new value (the `hashlink` map behaviour of
`saphyr`'s mapping), a new key is appended. -/
def insertAssoc : List (Str × Str) → Str → Str → List (Str × Str)
  | [], k, v => [(k, v)]
  | (k', v') :: rest, k, v =>
    if k' = k then (k', v) :: rest else (k', v') :: insertAssoc rest k v

/-- Mapping lookup. -/
def lookupAssoc : List (Str × Str) → Str → Option Str
  | [], _ => none
  | (k', v') :: rest, k => if k' = k then some v' else lookupAssoc rest k

/-- Model of `Content::insert_property`: upsert, reporting a change when the key
was absent or held a different value
(`insert(..).is_none_or(|previous| previous != value)`). -/
def Content.insertProperty (c : Content) (k v : Str) : Bool × Content :=
  ((match lookupAssoc c.properties k with
    | none => true
    | some prev => decide (prev ≠ v)),
   { c with properties := insertAssoc c.properties k v })

/-- Model of `Content::prepend_unique_entry`: push at the front only when no
structurally equal entry exists (`iter().all(|e| *e != entry)`). -/
def Content.prependUniqueEntry (c : Content) (e : Entry) : Bool × Content :=
  if c.entries.all (fun x => x != e) then
    (true, { c with entries := e :: c.entries })
  else
    (false, c)

/-- The per-entry text of `Display for Content`: a line as-is, a code
block as `open fence + kind, body verbatim, close fence`. -/
def renderEntryStr : Entry → Str
  | .line s => s
  | .codeBlock b =>
    '`' :: '`' :: '`' :: (b.kind ++ '\n' :: (b.code ++ ['`', '`', '`']))

/-- The entry loop of `Display for Content`: entries before the first
non-blank one are skipped (`entries_started`), each emitted entry is
followed by a newline (`writeln!`). -/
def renderLoop : Bool → List Entry → Str
  | _, [] => []
  | started, e :: rest =>
    if !started && e.isEmptyB then renderLoop started rest
    else renderEntryStr e ++ '\n' :: renderLoop true rest

/-- Modelled from the spec: the flat `key: value` line the YAML emitter
produces for one string-to-string property (§4.2 "a single-level
`key: value` per line"); the emitter body of the external `saphyr` crate
is not part of this repository. -/
def kvLine (p : Str × Str) : Str := p.1 ++ ':' :: ' ' :: p.2

/-- Model of `Display for Content`: if properties are non-empty, the emitter dump
(`---`, newline-joined `key: value` lines) followed by `writeln!("\n---")`;
then the entry loop. -/
def Content.render (c : Content) : Str :=
  (if c.properties = [] then []
   else '-' :: '-' :: '-' :: '\n' ::
     (joinNl (c.properties.map kvLine)
       ++ '\n' :: '-' :: '-' :: '-' :: ['\n']))
  ++ renderLoop false c.entries

/-- Model of `line.strip_prefix("```")`. -/
def stripFence : Str → Option Str
  | '`' :: '`' :: '`' :: rest => some rest
  | _ => none

/-- The front-matter scan of `FromStr for Content`: collect lines until
the closing `---` (dropped) or the end of input. -/
def takeUntilDelim : List Str → List Str × List Str
  | [] => ([], [])
  | l :: rest =>
    if l = ['-', '-', '-'] then ([], rest)
    else
      let p := takeUntilDelim rest
      (l :: p.1, p.2)

/-- The code-block scan of `FromStr for Content`: capture lines verbatim
(each with a trailing newline) until a line equal to the closing fence
(dropped) or the end of input. -/
def collectCode : List Str → Str × List Str
  | [] => ([], [])
  | l :: rest =>
    if l = ['`', '`', '`'] then ([], rest)
    else
      let p := collectCode rest
      (l ++ '\n' :: p.1, p.2)

/-- Model of `collectCode` consumes a prefix of its input. -/
theorem collectCode_len (ls : List Str) :
    (collectCode ls).2.length ≤ ls.length := by
  induction ls with
  | nil => simp [collectCode]
  | cons l rest ih =>
    unfold collectCode
    by_cases h : l = ['`', '`', '`']
    · rw [if_pos h]; simp
    · rw [if_neg h]; simp; omega

/-- The entry loop of `FromStr for Content`: a fence-prefixed line opens
a code block whose kind is the rest of the line; every other line is a
`Line` entry (leading blank lines included). -/
def parseEntries : List Str → List Entry
  | [] => []
  | l :: rest =>
    match stripFence l with
    | some kind =>
      have hlen : (collectCode rest).2.length ≤ rest.length :=
        collectCode_len rest
      .codeBlock ⟨kind, (collectCode rest).1⟩ ::
        parseEntries (collectCode rest).2
    | none => .line l :: parseEntries rest
termination_by ls => ls.length
decreasing_by
  · simp only [List.length_cons]
    omega
  · simp only [List.length_cons]
    omega

/-- Modelled from the spec: decoding of the captured front-matter span as
a flat string-keyed mapping, one `key: value` per line (§4.2); the parser
body of the external `saphyr` crate is not part of this repository.
Splits at the first colon-space. -/
def splitKV : Str → Option (Str × Str)
  | [] => none
  | c :: rest =>
    if c = ':' ∧ rest.head? = some ' ' then some ([], rest.tail)
    else
      match splitKV rest with
      | none => none
      | some (k, v) => some (c :: k, v)

/-- Modelled from the spec: fold the decoded `key: value` lines into the
insertion-ordered mapping; a line without a key/value shape is the
"not a YAML Mapping" hard error of `FromStr for Content`. -/
def decodePropsAux : List (Str × Str) → List Str →
    Except String (List (Str × Str))
  | acc, [] => .ok acc
  | acc, l :: rest =>
    match splitKV l with
    | none => .error "Properties is not a YAML Mapping"
    | some (k, v) => decodePropsAux (insertAssoc acc k v) rest

/-- Model of `FromStr for Content`: an opening `---` line starts the front-matter
scan; the remaining lines become entries. -/
def parseContent (s : Str) : Except String Content :=
  match rustLines s with
  | [] => .ok {}
  | l :: rest =>
    if l = ['-', '-', '-'] then
      let p := takeUntilDelim rest
      match decodePropsAux [] p.1 with
      | .ok props => .ok { properties := props, entries := parseEntries p.2 }
      | .error e => .error e
    else .ok { properties := [], entries := parseEntries (l :: rest) }

/-- Model of `Page` from `src/utils/src/page.rs`: content plus the modification
flag (the path and existence flag play no part in the claims). -/
structure Page where
  content : Content := {}
  modified : Bool := false
deriving DecidableEq, Repr

/-- Model of `Page::insert_property`: sets `modified` when the content reports a
change. -/
def Page.insertProperty (p : Page) (k v : Str) : Page :=
  let r := p.content.insertProperty k v
  { content := r.2, modified := p.modified || r.1 }

/-- Model of `Page::prepend_line`: prepend-unique of a `Line` entry, setting
`modified` on change. -/
def Page.prependLine (p : Page) (s : Str) : Page :=
  let r := p.content.prependUniqueEntry (.line s)
  { content := r.2, modified := p.modified || r.1 }

/-- One mutation of the content-level API. -/
inductive ContentOp
  | insertProp (k v : Str)
  | prependEntry (e : Entry)
deriving DecidableEq, Repr

/-- Apply one content mutation. -/
def Content.applyOp (c : Content) : ContentOp → Content
  | .insertProp k v => (c.insertProperty k v).2
  | .prependEntry e => (c.prependUniqueEntry e).2

/-- Apply a sequence of content mutations. -/
def Content.applyOps (c : Content) (ops : List ContentOp) : Content :=
  ops.foldl Content.applyOp c

/-- One mutation of the page-level API. -/
inductive PageOp
  | insertProp (k v : Str)
  | prependLine (s : Str)
deriving DecidableEq, Repr

/-- Apply one page mutation. -/
def Page.applyOp (p : Page) : PageOp → Page
  | .insertProp k v => p.insertProperty k v
  | .prependLine s => p.prependLine s

/-- Apply a sequence of page mutations. -/
def Page.applyOps (p : Page) (ops : List PageOp) : Page :=
  ops.foldl Page.applyOp p

/-- A text with no newline or carriage return. -/
def goodStr (s : Str) : Bool := s.all fun c => (c != '\n') && (c != '\r')

/-- No colon-followed-by-space inside the text (so the modelled decoder
splits a property line back at the emitted separator). -/
def noColonSpace : Str → Bool
  | [] => true
  | c :: rest =>
    if c = ':' ∧ rest.head? = some ' ' then false else noColonSpace rest

/-- A line entry that serializes to its own source line: single-line, not
the front-matter delimiter, not fence-prefixed. -/
def goodLine (s : Str) : Bool :=
  goodStr s && (s != ['-', '-', '-']) && (stripFence s).isNone

/-- A code-block body that the parser can rebuild: newline-terminated (or
empty), and no body line equal to the closing fence. -/
def goodCode (c : Str) : Bool :=
  ((splitNl c).getLast? == some []) &&
    (splitNl c).dropLast.all fun l => goodStr l && (l != ['`', '`', '`'])

/-- A round-trippable entry. -/
def goodEntry : Entry → Bool
  | .line s => goodLine s
  | .codeBlock b => goodStr b.kind && goodCode b.code

/-- A round-trippable mutation, the documented constraint of the spec
plus the whitespace conditions the text format needs. -/
def goodOp : ContentOp → Bool
  | .insertProp k v => goodStr k && noColonSpace k && goodStr v
  | .prependEntry e => goodEntry e

/-- Round-trippable properties. -/
def goodProps (ps : List (Str × Str)) : Bool :=
  ps.all fun p => goodStr p.1 && noColonSpace p.1 && goodStr p.2

/-- Pairwise-distinct keys (the mapping invariant). -/
def nodupKeys : List (Str × Str) → Bool
  | [] => true
  | (k, _) :: rest => rest.all (fun p => p.1 != k) && nodupKeys rest

/-- A content that renders to a parseable text. -/
def goodContent (c : Content) : Bool :=
  goodProps c.properties && nodupKeys c.properties
    && c.entries.all goodEntry

/-- The entry sequence does not begin with a blank entry (the render loop
drops leading blanks, so they cannot round-trip). -/
def noLeadingBlank (c : Content) : Bool :=
  match c.entries with
  | [] => true
  | e :: _ => !e.isEmptyB

end Prep

namespace Prep

theorem splitNl_cons_newline (rest : Str) :
    splitNl ('\n' :: rest) = [] :: splitNl rest := by
  simp [splitNl]

theorem splitNl_cons_other (c : Char) (rest : Str) (h : c ≠ '\n') :
    splitNl (c :: rest)
      = match splitNl rest with
        | [] => [[c]]
        | l :: ls => (c :: l) :: ls := by
  simp [splitNl, h]

theorem splitNl_ne_nil (s : Str) : splitNl s ≠ [] := by
  cases s with
  | nil => simp [splitNl]
  | cons c rest =>
    unfold splitNl
    by_cases h : c = '\n'
    · rw [if_pos h]; simp
    · rw [if_neg h]
      cases splitNl rest <;> simp

theorem splitNl_no_newline (s : Str) : ∀ l ∈ splitNl s, '\n' ∉ l := by
  induction s with
  | nil => simp [splitNl]
  | cons c rest ih =>
    unfold splitNl
    by_cases h : c = '\n'
    · rw [if_pos h]
      intro l hl
      rcases List.mem_cons.mp hl with h' | h'
      · simp [h']
      · exact ih l h'
    · rw [if_neg h]
      cases hsp : splitNl rest with
      | nil => exact absurd hsp (splitNl_ne_nil rest)
      | cons l0 ls =>
        intro l hl
        rcases List.mem_cons.mp hl with h' | h'
        · subst h'
          intro hc
          rcases List.mem_cons.mp hc with h'' | h''
          · exact h h''.symm
          · exact ih l0 (hsp ▸ List.mem_cons_self l0 ls) h''
        · exact ih l (hsp ▸ List.mem_cons_of_mem l0 h')

theorem joinNl_cons (l : Str) (t : List Str) (h : t ≠ []) :
    joinNl (l :: t) = l ++ '\n' :: joinNl t := by
  cases t with
  | nil => exact absurd rfl h
  | cons l' t' => rfl

theorem joinNl_splitNl (s : Str) : joinNl (splitNl s) = s := by
  induction s with
  | nil => rfl
  | cons c rest ih =>
    unfold splitNl
    by_cases h : c = '\n'
    · rw [if_pos h, joinNl_cons _ _ (splitNl_ne_nil rest)]
      simp [h, ih]
    · rw [if_neg h]
      cases hsp : splitNl rest with
      | nil => exact absurd hsp (splitNl_ne_nil rest)
      | cons l0 ls =>
        rw [hsp] at ih
        cases ls with
        | nil =>
          show joinNl [c :: l0] = c :: rest
          show c :: l0 = c :: rest
          rw [show l0 = rest from ih]
        | cons l1 ls' =>
          rw [joinNl_cons (c :: l0) (l1 :: ls') (by simp)]
          rw [joinNl_cons l0 (l1 :: ls') (by simp)] at ih
          simp only [List.cons_append]
          rw [ih]

theorem splitNl_append_newline (l : Str) (t : Str) (h : '\n' ∉ l) :
    splitNl (l ++ '\n' :: t) = l :: splitNl t := by
  induction l with
  | nil =>
    simp only [List.nil_append]
    exact splitNl_cons_newline t
  | cons c l' ih =>
    have hc : c ≠ '\n' := fun hc => h (hc ▸ List.mem_cons_self c l')
    have h' : '\n' ∉ l' := fun hm => h (List.mem_cons_of_mem c hm)
    simp only [List.cons_append]
    rw [splitNl_cons_other c _ hc, ih h']

theorem splitNl_unlines (ls : List Str) (h : ∀ l ∈ ls, '\n' ∉ l) :
    splitNl (unlinesL ls) = ls ++ [[]] := by
  induction ls with
  | nil => rfl
  | cons l rest ih =>
    show splitNl (l ++ '\n' :: unlinesL rest) = (l :: rest) ++ [[]]
    rw [splitNl_append_newline l _ (h l (List.mem_cons_self l rest)),
      ih fun x hx => h x (List.mem_cons_of_mem l hx)]
    rfl

theorem goodStr_spec (s : Str) (h : goodStr s = true) :
    '\n' ∉ s ∧ '\r' ∉ s := by
  simp only [goodStr, List.all_eq_true, Bool.and_eq_true, bne_iff_ne,
    ne_eq] at h
  constructor
  · intro hc; exact (h '\n' hc).1 rfl
  · intro hc; exact (h '\r' hc).2 rfl

theorem stripCR_eq_self (l : Str) (h : '\r' ∉ l) : stripCR l = l := by
  unfold stripCR
  rw [if_neg]
  intro hc
  exact h (List.mem_of_mem_getLast? hc)

theorem rustLines_unlines (ls : List Str)
    (h : ∀ l ∈ ls, '\n' ∉ l ∧ '\r' ∉ l) :
    rustLines (unlinesL ls) = ls := by
  unfold rustLines
  rw [splitNl_unlines ls fun l hl => (h l hl).1]
  dsimp only
  rw [if_pos (by simp [List.getLast?_concat])]
  rw [List.dropLast_concat]
  have hid : ∀ l ∈ ls, stripCR l = l :=
    fun l hl => stripCR_eq_self l (h l hl).2
  calc ls.map stripCR = ls.map id := List.map_congr_left hid
    _ = ls := List.map_id ls

theorem unlines_append (a b : List Str) :
    unlinesL (a ++ b) = unlinesL a ++ unlinesL b := by
  induction a with
  | nil => rfl
  | cons l rest ih =>
    show l ++ '\n' :: unlinesL (rest ++ b)
      = (l ++ '\n' :: unlinesL rest) ++ unlinesL b
    rw [ih]
    simp

theorem unlines_dropLast (parts : List Str) (h : parts.getLast? = some []) :
    unlinesL parts.dropLast = joinNl parts := by
  induction parts with
  | nil => rfl
  | cons p rest ih =>
    cases rest with
    | nil =>
      simp only [List.getLast?_singleton, Option.some.injEq] at h
      simp [h, unlinesL, joinNl]
    | cons q rest' =>
      have h' : (q :: rest').getLast? = some [] := by
        rw [List.getLast?_cons_cons] at h
        exact h
      rw [List.dropLast_cons₂]
      show p ++ '\n' :: unlinesL (q :: rest').dropLast = _
      rw [ih h', joinNl_cons p (q :: rest') (by simp)]

theorem code_eq_unlines (c : Str) (h : goodCode c = true) :
    unlinesL ((splitNl c).dropLast) = c := by
  simp only [goodCode, Bool.and_eq_true, beq_iff_eq] at h
  rw [unlines_dropLast _ h.1, joinNl_splitNl]

/-- The source lines each entry contributes to the rendered text. -/
def entryLines : Entry → List Str
  | .line s => [s]
  | .codeBlock b =>
    ('`' :: '`' :: '`' :: b.kind) :: (splitNl b.code).dropLast
      ++ [['`', '`', '`']]

/-- The entry loop without skipping: every entry rendered and
newline-terminated. -/
def renderAll (es : List Entry) : Str :=
  es.foldr (fun e acc => renderEntryStr e ++ '\n' :: acc) []

theorem renderLoop_true_eq (es : List Entry) :
    renderLoop true es = renderAll es := by
  induction es with
  | nil => rfl
  | cons e rest ih =>
    show (if !true && e.isEmptyB then renderLoop true rest
      else renderEntryStr e ++ '\n' :: renderLoop true rest) = _
    rw [ih]
    simp [renderAll]

theorem renderLoop_false_eq (es : List Entry) :
    renderLoop false es = renderAll (es.dropWhile Entry.isEmptyB) := by
  induction es with
  | nil => rfl
  | cons e rest ih =>
    by_cases he : e.isEmptyB
    · show (if !false && e.isEmptyB then renderLoop false rest
        else renderEntryStr e ++ '\n' :: renderLoop true rest) = _
      rw [List.dropWhile_cons, if_pos he, if_pos (by simp [he])]
      exact ih
    · show (if !false && e.isEmptyB then renderLoop false rest
        else renderEntryStr e ++ '\n' :: renderLoop true rest) = _
      rw [List.dropWhile_cons,
        if_neg (by simp [he]), if_neg (by simp [he]),
        renderLoop_true_eq]
      rfl

theorem unlines_entryLines (e : Entry) (h : goodEntry e = true) :
    unlinesL (entryLines e) = renderEntryStr e ++ ['\n'] := by
  cases e with
  | line s => simp [entryLines, unlinesL, renderEntryStr]
  | codeBlock b =>
    simp only [goodEntry, Bool.and_eq_true] at h
    have hcode := code_eq_unlines b.code h.2
    show unlinesL ((('`' :: '`' :: '`' :: b.kind)
        :: (splitNl b.code).dropLast) ++ [['`', '`', '`']]) = _
    rw [unlines_append]
    show (('`' :: '`' :: '`' :: b.kind)
        ++ '\n' :: unlinesL ((splitNl b.code).dropLast))
        ++ unlinesL [['`', '`', '`']] = _
    rw [hcode]
    simp [unlinesL, renderEntryStr]

theorem renderAll_unlines (es : List Entry)
    (h : ∀ e ∈ es, goodEntry e = true) :
    renderAll es = unlinesL ((es.map entryLines).flatten) := by
  induction es with
  | nil => rfl
  | cons e rest ih =>
    show renderEntryStr e ++ '\n' :: renderAll rest = _
    rw [List.map_cons, List.flatten_cons, unlines_append,
      ih fun x hx => h x (List.mem_cons_of_mem e hx),
      unlines_entryLines e (h e (List.mem_cons_self e rest))]
    simp

theorem unlines_eq_joinNl (ls : List Str) (h : ls ≠ []) :
    unlinesL ls = joinNl ls ++ ['\n'] := by
  induction ls with
  | nil => exact absurd rfl h
  | cons l rest ih =>
    cases rest with
    | nil => rfl
    | cons q r =>
      show l ++ '\n' :: unlinesL (q :: r) = _
      rw [ih (by simp), joinNl_cons l (q :: r) (by simp)]
      simp

/-- The source lines of a rendered content. -/
def allLines (c : Content) : List Str :=
  (if c.properties = [] then []
   else ['-', '-', '-'] :: c.properties.map kvLine ++ [['-', '-', '-']])
  ++ (c.entries.map entryLines).flatten

theorem goodContent_spec (c : Content) (h : goodContent c = true) :
    goodProps c.properties = true ∧ nodupKeys c.properties = true
    ∧ ∀ e ∈ c.entries, goodEntry e = true := by
  simp only [goodContent, Bool.and_eq_true, List.all_eq_true] at h
  exact ⟨h.1.1, h.1.2, h.2⟩

theorem render_eq_unlines (c : Content) (hg : goodContent c = true)
    (hl : noLeadingBlank c = true) :
    c.render = unlinesL (allLines c) := by
  obtain ⟨hp, hnd, he⟩ := goodContent_spec c hg
  unfold Content.render allLines
  rw [unlines_append]
  congr 1
  · by_cases hpe : c.properties = []
    · rw [if_pos hpe, if_pos hpe]; rfl
    · rw [if_neg hpe, if_neg hpe]
      have hne : c.properties.map kvLine ≠ [] := by simpa using hpe
      show _ = ['-', '-', '-']
        ++ '\n' :: unlinesL (c.properties.map kvLine ++ [['-', '-', '-']])
      rw [unlines_append, unlines_eq_joinNl _ hne]
      simp [unlinesL]
  · rw [renderLoop_false_eq]
    have hdw : c.entries.dropWhile Entry.isEmptyB = c.entries := by
      cases hce : c.entries with
      | nil => rfl
      | cons e r =>
        unfold noLeadingBlank at hl
        rw [hce] at hl
        rw [List.dropWhile_cons, if_neg (by simp_all)]
    rw [hdw, renderAll_unlines _ he]

theorem goodStr_append (a b : Str) :
    goodStr (a ++ b) = (goodStr a && goodStr b) := by
  simp [goodStr, List.all_append]

theorem allLines_good (c : Content) (hg : goodContent c = true) :
    ∀ l ∈ allLines c, goodStr l = true := by
  obtain ⟨hp, hnd, he⟩ := goodContent_spec c hg
  simp only [goodProps, List.all_eq_true, Bool.and_eq_true] at hp
  intro l hl
  unfold allLines at hl
  rcases List.mem_append.mp hl with h1 | h2
  · by_cases hpe : c.properties = []
    · rw [if_pos hpe] at h1; cases h1
    · rw [if_neg hpe] at h1
      rcases List.mem_cons.mp h1 with h' | h'
      · subst h'; rfl
      · rcases List.mem_append.mp h' with h'' | h''
        · obtain ⟨p, hpmem, rfl⟩ := List.mem_map.mp h''
          have hpg := hp p hpmem
          show goodStr (p.1 ++ ':' :: ' ' :: p.2) = true
          rw [goodStr_append]
          simp only [goodStr, List.all_cons] at hpg ⊢
          simp [hpg.1.1, hpg.2]
        · simp only [List.mem_singleton] at h''
          subst h''; rfl
  · rcases List.mem_flatten.mp h2 with ⟨ls, hls, hlin⟩
    rcases List.mem_map.mp hls with ⟨e, hemem, rfl⟩
    have heg := he e hemem
    cases e with
    | line s =>
      simp only [entryLines, List.mem_singleton] at hlin
      subst hlin
      simp only [goodEntry, goodLine, Bool.and_eq_true] at heg
      exact heg.1.1
    | codeBlock b =>
      simp only [goodEntry, Bool.and_eq_true] at heg
      rcases List.mem_cons.mp hlin with h' | h'
      · subst h'
        show goodStr ('`' :: '`' :: '`' :: b.kind) = true
        simp [goodStr, List.all_cons]
        simp [goodStr] at heg
        exact fun x hx => heg.1 x hx
      · rcases List.mem_append.mp h' with h'' | h''
        · have hgc := heg.2
          simp only [goodCode, Bool.and_eq_true, List.all_eq_true] at hgc
          exact (hgc.2 l h'').1
        · simp only [List.mem_singleton] at h''
          subst h''; rfl

theorem takeUntilDelim_spec (pre post : List Str)
    (h : ∀ l ∈ pre, l ≠ ['-', '-', '-']) :
    takeUntilDelim (pre ++ ['-', '-', '-'] :: post) = (pre, post) := by
  induction pre with
  | nil =>
    simp only [List.nil_append]
    unfold takeUntilDelim
    rw [if_pos rfl]
  | cons l rest ih =>
    simp only [List.cons_append]
    unfold takeUntilDelim
    rw [if_neg (h l (List.mem_cons_self l rest)),
      ih fun x hx => h x (List.mem_cons_of_mem l hx)]

theorem kvLine_ne_delim (p : Str × Str) : kvLine p ≠ ['-', '-', '-'] := by
  intro h
  have hmem : ':' ∈ kvLine p := by simp [kvLine]
  rw [h] at hmem
  simp at hmem

theorem splitKV_kvLine (k v : Str) (h : noColonSpace k = true) :
    splitKV (kvLine (k, v)) = some (k, v) := by
  induction k with
  | nil =>
    show splitKV (':' :: ' ' :: v) = some ([], v)
    unfold splitKV
    rw [if_pos ⟨rfl, rfl⟩]
    rfl
  | cons c k' ih =>
    have hsplit : ¬(c = ':' ∧ (k' ++ ':' :: ' ' :: v).head? = some ' ') := by
      cases k' with
      | nil => rintro ⟨-, hh⟩; simp at hh
      | cons c2 k'' =>
        rintro ⟨hc, hh⟩
        simp only [List.cons_append, List.head?_cons,
          Option.some.injEq] at hh
        unfold noColonSpace at h
        rw [if_pos ⟨hc, by simp [hh]⟩] at h
        cases h
    have hk' : noColonSpace k' = true := by
      unfold noColonSpace at h
      by_cases hcnd : c = ':' ∧ k'.head? = some ' '
      · rw [if_pos hcnd] at h; cases h
      · rw [if_neg hcnd] at h; exact h
    show splitKV (c :: (k' ++ ':' :: ' ' :: v)) = some (c :: k', v)
    unfold splitKV
    rw [if_neg hsplit]
    have hkv := ih hk'
    unfold kvLine at hkv
    simp only at hkv
    rw [hkv]

theorem insertAssoc_fresh (ps : List (Str × Str)) (k v : Str)
    (h : lookupAssoc ps k = none) :
    insertAssoc ps k v = ps ++ [(k, v)] := by
  induction ps with
  | nil => rfl
  | cons p rest ih =>
    obtain ⟨k', v'⟩ := p
    unfold lookupAssoc at h
    unfold insertAssoc
    by_cases hk : k' = k
    · rw [if_pos hk] at h; cases h
    · rw [if_neg hk] at h
      rw [if_neg hk, ih h]
      rfl

theorem lookupAssoc_append (acc : List (Str × Str)) (p : Str × Str)
    (q : Str) :
    lookupAssoc (acc ++ [p]) q =
      match lookupAssoc acc q with
      | some v => some v
      | none => if p.1 = q then some p.2 else none := by
  induction acc with
  | nil => rfl
  | cons a rest ih =>
    obtain ⟨k', v'⟩ := a
    simp only [List.cons_append]
    unfold lookupAssoc
    by_cases hk : k' = q
    · rw [if_pos hk, if_pos hk]
    · rw [if_neg hk, if_neg hk, ih]

theorem decode_roundtrip (ps : List (Str × Str)) (acc : List (Str × Str))
    (hgood : ∀ p ∈ ps, noColonSpace p.1 = true)
    (hfresh : ∀ p ∈ ps, lookupAssoc acc p.1 = none)
    (hnd : nodupKeys ps = true) :
    decodePropsAux acc (ps.map kvLine) = .ok (acc ++ ps) := by
  induction ps generalizing acc with
  | nil => simp [decodePropsAux]
  | cons p rest ih =>
    simp only [List.map_cons]
    unfold decodePropsAux
    rw [show kvLine p = kvLine (p.1, p.2) from rfl,
      splitKV_kvLine p.1 p.2 (hgood p (List.mem_cons_self p rest))]
    simp only
    rw [insertAssoc_fresh _ _ _ (hfresh p (List.mem_cons_self p rest))]
    unfold nodupKeys at hnd
    obtain ⟨k0, v0⟩ := p
    simp only [Bool.and_eq_true, List.all_eq_true, bne_iff_ne, ne_eq] at hnd
    rw [ih (acc ++ [(k0, v0)])
      (fun q hq => hgood q (List.mem_cons_of_mem _ hq))
      (fun q hq => by
        rw [lookupAssoc_append, hfresh q (List.mem_cons_of_mem _ hq)]
        show (if k0 = q.1 then some v0 else none) = none
        rw [if_neg fun hc => hnd.1 q hq hc.symm])
      hnd.2]
    simp

theorem collectCode_spec (body post : List Str)
    (h : ∀ l ∈ body, l ≠ ['`', '`', '`']) :
    collectCode (body ++ ['`', '`', '`'] :: post) = (unlinesL body, post) := by
  induction body with
  | nil =>
    simp only [List.nil_append]
    unfold collectCode
    rw [if_pos rfl]
    rfl
  | cons l rest ih =>
    simp only [List.cons_append]
    unfold collectCode
    rw [if_neg (h l (List.mem_cons_self l rest)),
      ih fun x hx => h x (List.mem_cons_of_mem l hx)]
    rfl

theorem parseEntries_roundtrip (es : List Entry)
    (h : ∀ e ∈ es, goodEntry e = true) :
    parseEntries ((es.map entryLines).flatten) = es := by
  induction es with
  | nil => simp only [List.map_nil, List.flatten_nil, parseEntries]
  | cons e rest ih =>
    rw [List.map_cons, List.flatten_cons]
    have hg := h e (List.mem_cons_self e rest)
    have ihr := ih fun x hx => h x (List.mem_cons_of_mem e hx)
    cases e with
    | line s =>
      simp only [goodEntry, goodLine, Bool.and_eq_true,
        Option.isNone_iff_eq_none] at hg
      show parseEntries (s :: (rest.map entryLines).flatten) = _
      simp only [parseEntries, hg.2, ihr]
    | codeBlock b =>
      simp only [goodEntry, Bool.and_eq_true] at hg
      have hbody : ∀ l ∈ (splitNl b.code).dropLast, l ≠ ['`', '`', '`'] := by
        intro l hl
        have := hg.2
        simp only [goodCode, Bool.and_eq_true, List.all_eq_true] at this
        simpa using (this.2 l hl).2
      show parseEntries ((('`' :: '`' :: '`' :: b.kind)
          :: ((splitNl b.code).dropLast ++ [['`', '`', '`']]))
          ++ (rest.map entryLines).flatten) = _
      rw [List.cons_append, List.append_assoc, List.singleton_append]
      simp only [parseEntries, stripFence]
      rw [collectCode_spec _ _ hbody, code_eq_unlines b.code hg.2]
      simp only [ihr]

theorem parseEntries_lines (ls : List Str)
    (h : ∀ l ∈ ls, stripFence l = none) :
    parseEntries ls = ls.map .line := by
  induction ls with
  | nil => simp only [List.map_nil, parseEntries]
  | cons l rest ih =>
    simp only [parseEntries, h l (List.mem_cons_self l rest), List.map_cons,
      ih fun x hx => h x (List.mem_cons_of_mem l hx)]

theorem entryLines_ne_nil (e : Entry) : entryLines e ≠ [] := by
  cases e <;> simp [entryLines]

theorem flatten_entryLines_eq_nil (es : List Entry)
    (h : (es.map entryLines).flatten = []) : es = [] := by
  cases es with
  | nil => rfl
  | cons e r =>
    rw [List.map_cons, List.flatten_cons] at h
    rcases List.append_eq_nil.mp h with ⟨h1, -⟩
    exact absurd h1 (entryLines_ne_nil e)

theorem flatten_entryLines_head_ne (es : List Entry)
    (h : ∀ e ∈ es, goodEntry e = true) (l : Str) (rest : List Str)
    (heq : (es.map entryLines).flatten = l :: rest) :
    l ≠ ['-', '-', '-'] := by
  cases es with
  | nil => cases heq
  | cons e r =>
    rw [List.map_cons, List.flatten_cons] at heq
    have hg := h e (List.mem_cons_self e r)
    cases e with
    | line s =>
      simp only [entryLines, List.cons_append, List.nil_append,
        List.cons.injEq] at heq
      simp only [goodEntry, goodLine, Bool.and_eq_true, bne_iff_ne,
        ne_eq] at hg
      exact heq.1 ▸ hg.1.2
    | codeBlock b =>
      simp only [entryLines, List.cons_append, List.cons.injEq] at heq
      rw [← heq.1]
      intro hc
      cases hc

/-- The round trip of the preparer document model: a well-formed content
with no leading blank entry parses back from its rendering. -/
theorem content_roundtrip (c : Content) (hg : goodContent c = true)
    (hl : noLeadingBlank c = true) :
    parseContent c.render = .ok c := by
  obtain ⟨hp, hnd, he⟩ := goodContent_spec c hg
  rw [render_eq_unlines c hg hl]
  have hlines : ∀ l ∈ allLines c, '\n' ∉ l ∧ '\r' ∉ l :=
    fun l hll => goodStr_spec l (allLines_good c hg l hll)
  unfold parseContent
  rw [rustLines_unlines _ hlines]
  by_cases hpe : c.properties = []
  · rw [show allLines c = (c.entries.map entryLines).flatten by
      unfold allLines; rw [if_pos hpe]; rfl]
    cases hflat : (c.entries.map entryLines).flatten with
    | nil =>
      have hce : c.entries = [] := flatten_entryLines_eq_nil _ hflat
      have hcc : c = {} := by
        obtain ⟨ps, es⟩ := c
        simp only at hpe hce
        rw [hpe, hce]
      rw [hcc]
    | cons l rest =>
      have hld := flatten_entryLines_head_ne c.entries he l rest hflat
      dsimp only
      rw [if_neg hld, ← hflat, parseEntries_roundtrip c.entries he,
        ← hpe]
  · rw [show allLines c = ['-', '-', '-']
        :: (c.properties.map kvLine
          ++ (['-', '-', '-'] :: (c.entries.map entryLines).flatten)) by
      unfold allLines; rw [if_neg hpe]; simp]
    dsimp only
    rw [if_pos rfl,
      takeUntilDelim_spec (c.properties.map kvLine)
        ((c.entries.map entryLines).flatten)
        (fun x hx => by
          rcases List.mem_map.mp hx with ⟨p, -, rfl⟩
          exact kvLine_ne_delim p)]
    have hgoodkeys : ∀ p ∈ c.properties, noColonSpace p.1 = true := by
      intro p hpm
      simp only [goodProps, List.all_eq_true, Bool.and_eq_true] at hp
      exact (hp p hpm).1.2
    rw [decode_roundtrip c.properties [] hgoodkeys
      (fun p _ => rfl) hnd]
    dsimp only
    rw [List.nil_append, parseEntries_roundtrip c.entries he]

theorem mem_insertAssoc (ps : List (Str × Str)) (k v : Str) :
    ∀ q ∈ insertAssoc ps k v, (q.1 = k ∧ q.2 = v) ∨ q ∈ ps := by
  induction ps with
  | nil =>
    intro q hq
    simp only [insertAssoc, List.mem_singleton] at hq
    subst hq
    exact Or.inl ⟨rfl, rfl⟩
  | cons p rest ih =>
    obtain ⟨k', v'⟩ := p
    intro q hq
    unfold insertAssoc at hq
    by_cases hk : k' = k
    · rw [if_pos hk] at hq
      rcases List.mem_cons.mp hq with h' | h'
      · subst h'; exact Or.inl ⟨hk, rfl⟩
      · exact Or.inr (List.mem_cons_of_mem _ h')
    · rw [if_neg hk] at hq
      rcases List.mem_cons.mp hq with h' | h'
      · subst h'; exact Or.inr (List.mem_cons_self _ rest)
      · rcases ih q h' with h'' | h''
        · exact Or.inl h''
        · exact Or.inr (List.mem_cons_of_mem _ h'')

theorem insertAssoc_goodProps (ps : List (Str × Str)) (k v : Str)
    (hps : goodProps ps = true) (hk : goodStr k = true)
    (hcs : noColonSpace k = true) (hv : goodStr v = true) :
    goodProps (insertAssoc ps k v) = true := by
  simp only [goodProps, List.all_eq_true, Bool.and_eq_true] at hps ⊢
  intro q hq
  rcases mem_insertAssoc ps k v q hq with ⟨h1, h2⟩ | h'
  · rw [h1, h2]
    exact ⟨⟨hk, hcs⟩, hv⟩
  · exact hps q h'

theorem insertAssoc_nodupKeys (ps : List (Str × Str)) (k v : Str)
    (h : nodupKeys ps = true) : nodupKeys (insertAssoc ps k v) = true := by
  induction ps with
  | nil => rfl
  | cons p rest ih =>
    obtain ⟨k', v'⟩ := p
    unfold nodupKeys at h
    simp only [Bool.and_eq_true, List.all_eq_true] at h
    unfold insertAssoc
    by_cases hk : k' = k
    · rw [if_pos hk]
      unfold nodupKeys
      simp only [Bool.and_eq_true, List.all_eq_true]
      exact ⟨h.1, h.2⟩
    · rw [if_neg hk]
      unfold nodupKeys
      simp only [Bool.and_eq_true, List.all_eq_true]
      refine ⟨fun q hq => ?_, ih h.2⟩
      rcases mem_insertAssoc rest k v q hq with ⟨h1, -⟩ | h'
      · simp [h1]
        exact fun hc => hk hc.symm
      · exact h.1 q h'

theorem goodContent_applyOp (c : Content) (op : ContentOp)
    (hc : goodContent c = true) (hop : goodOp op = true) :
    goodContent (c.applyOp op) = true := by
  obtain ⟨hp, hnd, he⟩ := goodContent_spec c hc
  cases op with
  | insertProp k v =>
    simp only [goodOp, Bool.and_eq_true] at hop
    show goodContent
      { c with properties := insertAssoc c.properties k v } = true
    simp only [goodContent, Bool.and_eq_true, List.all_eq_true]
    exact ⟨⟨insertAssoc_goodProps _ _ _ hp hop.1.1 hop.1.2 hop.2,
      insertAssoc_nodupKeys _ _ _ hnd⟩, he⟩
  | prependEntry e =>
    show goodContent (c.prependUniqueEntry e).2 = true
    unfold Content.prependUniqueEntry
    by_cases hmem : c.entries.all (fun x => x != e) = true
    · rw [if_pos hmem]
      simp only [goodContent, Bool.and_eq_true, List.all_eq_true]
      refine ⟨⟨hp, hnd⟩, fun x hx => ?_⟩
      rcases List.mem_cons.mp hx with h' | h'
      · exact h' ▸ hop
      · exact he x h'
    · rw [if_neg hmem]
      simpa [goodContent, Bool.and_eq_true, List.all_eq_true]
        using ⟨⟨hp, hnd⟩, he⟩

theorem goodContent_applyOps (ops : List ContentOp) (c : Content)
    (hc : goodContent c = true) (hops : ∀ op ∈ ops, goodOp op = true) :
    goodContent (c.applyOps ops) = true := by
  induction ops generalizing c with
  | nil => exact hc
  | cons op rest ih =>
    exact ih (c.applyOp op)
      (goodContent_applyOp c op hc (hops op (List.mem_cons_self op rest)))
      fun x hx => hops x (List.mem_cons_of_mem op hx)

/-- C6 (amended): a content built from the empty default by the mutation
API parses back from its rendered text, provided the mutations are
round-trippable (single-line keys/values with no colon-space in keys,
single-line entry texts that are not the delimiter nor fence-prefixed,
newline-terminated code bodies without a fence line) and the resulting
entry sequence does not begin with a blank entry. -/
theorem document_roundtrip_amended (ops : List ContentOp)
    (h1 : ∀ op ∈ ops, goodOp op = true)
    (h2 : noLeadingBlank (Content.applyOps {} ops) = true) :
    parseContent (Content.render (Content.applyOps {} ops))
      = .ok (Content.applyOps {} ops) :=
  content_roundtrip _ (goodContent_applyOps ops {} rfl h1) h2

/-- C6 witness: a property insert, a line prepend and a code-block
prepend round-trip. -/
theorem document_roundtrip_amended_witness :
    parseContent (Content.render (Content.applyOps {}
      [.insertProp ['k'] ['v'], .prependEntry (.line ['h', 'i']),
       .prependEntry (.codeBlock ⟨['t'], ['a', '\n']⟩)]))
      = .ok (Content.applyOps {}
        [.insertProp ['k'] ['v'], .prependEntry (.line ['h', 'i']),
         .prependEntry (.codeBlock ⟨['t'], ['a', '\n']⟩)]) :=
  document_roundtrip_amended
    [.insertProp ['k'] ['v'], .prependEntry (.line ['h', 'i']),
     .prependEntry (.codeBlock ⟨['t'], ['a', '\n']⟩)]
    (by decide) (by decide)

/-- C6 counterexample: prepending a single blank line to the empty
default — an entry containing neither the delimiter nor a fence token —
renders to text that parses back to the empty document, not to the
original content. -/
theorem document_roundtrip_counterexample :
    Content.applyOps {} [.prependEntry (.line [])]
      = { properties := [], entries := [.line []] }
    ∧ parseContent (Content.render
        (Content.applyOps {} [.prependEntry (.line [])])) = .ok {}
    ∧ ({} : Content) ≠ Content.applyOps {} [.prependEntry (.line [])] :=
  ⟨rfl, rfl, by decide⟩

theorem insertAssoc_noop (ps : List (Str × Str)) (k v : Str)
    (h : lookupAssoc ps k = some v) : insertAssoc ps k v = ps := by
  induction ps with
  | nil => cases h
  | cons p rest ih =>
    obtain ⟨k', v'⟩ := p
    unfold lookupAssoc at h
    unfold insertAssoc
    by_cases hk : k' = k
    · rw [if_pos hk] at h
      injection h with h'
      rw [if_pos hk, h']
    · rw [if_neg hk] at h
      rw [if_neg hk, ih h]

theorem insertProperty_noop (c : Content) (k v : Str)
    (h : lookupAssoc c.properties k = some v) :
    c.insertProperty k v = (false, c) := by
  unfold Content.insertProperty
  rw [h, insertAssoc_noop c.properties k v h]
  simp

theorem page_insertProperty_noop (p : Page) (k v : Str)
    (h : lookupAssoc p.content.properties k = some v) :
    p.insertProperty k v = p := by
  unfold Page.insertProperty
  rw [insertProperty_noop p.content k v h]
  simp

theorem prependUniqueEntry_noop (c : Content) (e : Entry)
    (h : e ∈ c.entries) : c.prependUniqueEntry e = (false, c) := by
  unfold Content.prependUniqueEntry
  rw [if_neg]
  simp only [List.all_eq_true, bne_iff_ne, ne_eq, not_forall]
  exact ⟨e, h, by simp⟩

theorem page_prependLine_noop (p : Page) (s : Str)
    (h : Entry.line s ∈ p.content.entries) : p.prependLine s = p := by
  unfold Page.prependLine
  rw [prependUniqueEntry_noop p.content (.line s) h]
  simp

theorem lookup_insertAssoc_self (ps : List (Str × Str)) (k v : Str) :
    lookupAssoc (insertAssoc ps k v) k = some v := by
  induction ps with
  | nil => simp [insertAssoc, lookupAssoc]
  | cons p rest ih =>
    obtain ⟨k', v'⟩ := p
    unfold insertAssoc
    by_cases hk : k' = k
    · rw [if_pos hk]
      unfold lookupAssoc
      rw [if_pos hk]
    · rw [if_neg hk]
      unfold lookupAssoc
      rw [if_neg hk, ih]

theorem lookup_insertAssoc_other (ps : List (Str × Str)) (k' v' k : Str)
    (h : k' ≠ k) :
    lookupAssoc (insertAssoc ps k' v') k = lookupAssoc ps k := by
  induction ps with
  | nil =>
    simp only [insertAssoc, lookupAssoc]
    rw [if_neg h]
  | cons p rest ih =>
    obtain ⟨k0, v0⟩ := p
    unfold insertAssoc
    by_cases hk : k0 = k'
    · rw [if_pos hk]
      unfold lookupAssoc
      rw [if_neg (hk ▸ h), if_neg (hk ▸ h)]
    · rw [if_neg hk]
      unfold lookupAssoc
      by_cases hk0 : k0 = k
      · rw [if_pos hk0, if_pos hk0]
      · rw [if_neg hk0, if_neg hk0, ih]

theorem applyOp_properties (p : Page) (op : PageOp) :
    (p.applyOp op).content.properties
      = match op with
        | .insertProp k v => insertAssoc p.content.properties k v
        | .prependLine _ => p.content.properties := by
  cases op with
  | insertProp k v => rfl
  | prependLine s =>
    show (p.prependLine s).content.properties = _
    unfold Page.prependLine Content.prependUniqueEntry
    by_cases h : p.content.entries.all (fun x => x != Entry.line s) = true
    · rw [if_pos h]
    · rw [if_neg h]

theorem applyOp_entries_mono (p : Page) (op : PageOp) (e : Entry)
    (h : e ∈ p.content.entries) : e ∈ (p.applyOp op).content.entries := by
  cases op with
  | insertProp k v => exact h
  | prependLine s =>
    show e ∈ (p.prependLine s).content.entries
    unfold Page.prependLine Content.prependUniqueEntry
    by_cases hall : p.content.entries.all (fun x => x != Entry.line s) = true
    · rw [if_pos hall]
      exact List.mem_cons_of_mem _ h
    · rw [if_neg hall]
      exact h

theorem applyOps_entries_mono (ops : List PageOp) (p : Page) (e : Entry)
    (h : e ∈ p.content.entries) :
    e ∈ (p.applyOps ops).content.entries := by
  induction ops generalizing p with
  | nil => exact h
  | cons op rest ih =>
    exact ih (p.applyOp op) (applyOp_entries_mono p op e h)

theorem applyOps_lookup_preserved (ops : List PageOp) (p : Page)
    (k : Str) (v : Str) (h : lookupAssoc p.content.properties k = some v)
    (hcons : ∀ v', PageOp.insertProp k v' ∈ ops → v' = v) :
    lookupAssoc (p.applyOps ops).content.properties k = some v := by
  induction ops generalizing p with
  | nil => exact h
  | cons op rest ih =>
    refine ih (p.applyOp op) ?_
      fun v' hv' => hcons v' (List.mem_cons_of_mem op hv')
    rw [applyOp_properties]
    cases op with
    | insertProp k' v' =>
      by_cases hk : k' = k
      · subst hk
        rw [hcons v' (List.mem_cons_self _ rest),
          lookup_insertAssoc_self]
      · rw [lookup_insertAssoc_other _ _ _ _ hk]
        exact h
    | prependLine s => exact h

theorem prependUniqueEntry_mem (c : Content) (e : Entry) :
    e ∈ (c.prependUniqueEntry e).2.entries := by
  unfold Content.prependUniqueEntry
  by_cases h : c.entries.all (fun x => x != e) = true
  · rw [if_pos h]
    exact List.mem_cons_self e c.entries
  · rw [if_neg h]
    simp only [List.all_eq_true, bne_iff_ne, ne_eq, not_forall] at h
    obtain ⟨x, hx, hxe⟩ := h
    simp only [Decidable.not_not] at hxe
    exact hxe ▸ hx

theorem applyOps_post_facts (ops : List PageOp) (p : Page)
    (hcons : ∀ k v v', PageOp.insertProp k v ∈ ops →
      PageOp.insertProp k v' ∈ ops → v = v') :
    (∀ k v, PageOp.insertProp k v ∈ ops →
      lookupAssoc (p.applyOps ops).content.properties k = some v)
    ∧ ∀ s, PageOp.prependLine s ∈ ops →
      Entry.line s ∈ (p.applyOps ops).content.entries := by
  induction ops generalizing p with
  | nil => exact ⟨fun k v hv => absurd hv (by simp),
      fun s hs => absurd hs (by simp)⟩
  | cons op rest ih =>
    have ihp := ih (p.applyOp op) fun k v v' hv hv' =>
      hcons k v v' (List.mem_cons_of_mem op hv)
        (List.mem_cons_of_mem op hv')
    constructor
    · intro k v hv
      rcases List.mem_cons.mp hv with h' | h'
      · subst h'
        refine applyOps_lookup_preserved rest
          (p.applyOp (.insertProp k v)) k v ?_ ?_
        · rw [applyOp_properties]
          exact lookup_insertAssoc_self _ _ _
        · intro v' hv'
          exact hcons k v' v (List.mem_cons_of_mem _ hv')
            (List.mem_cons_self _ rest)
      · exact ihp.1 k v h'
    · intro s hs
      rcases List.mem_cons.mp hs with h' | h'
      · subst h'
        refine applyOps_entries_mono rest
          (p.applyOp (.prependLine s)) _ ?_
        exact prependUniqueEntry_mem p.content (.line s)
      · exact ihp.2 s h'

theorem applyOps_fixed (ops : List PageOp) (p : Page)
    (h : ∀ op ∈ ops, p.applyOp op = p) : p.applyOps ops = p := by
  induction ops with
  | nil => rfl
  | cons op rest ih =>
    show Page.applyOps (p.applyOp op) rest = p
    rw [h op (List.mem_cons_self op rest)]
    exact ih fun x hx => h x (List.mem_cons_of_mem op hx)

/-- No two inserts of the same key with different values in a mutation
sequence. -/
def seqConsistentB (ops : List PageOp) : Bool :=
  ops.all fun op =>
    match op with
    | .insertProp k v =>
      ops.all fun op' =>
        match op' with
        | .insertProp k' v' => (k' != k) || (v' == v)
        | .prependLine _ => true
    | .prependLine _ => true

theorem seqConsistentB_spec (ops : List PageOp)
    (h : seqConsistentB ops = true) :
    ∀ k v v', PageOp.insertProp k v ∈ ops →
      PageOp.insertProp k v' ∈ ops → v = v' := by
  intro k v v' hv hv'
  simp only [seqConsistentB, List.all_eq_true] at h
  have h1 := h _ hv
  simp only [List.all_eq_true] at h1
  have h2 := h1 _ hv'
  simp only [Bool.or_eq_true, bne_iff_ne, ne_eq, beq_iff_eq] at h2
  rcases h2 with h' | h'
  · exact absurd trivial h'
  · exact h'.symm

/-- C7 (amended): inserting an already-present key/value pair and
prepending an already-present entry are no-ops that leave `modified`
untouched; and re-running a mutation sequence that never writes two
different values to one key leaves the page (and its cleared `modified`
flag) unchanged. -/
theorem mutation_idempotence (p : Page) (ops : List PageOp)
    (k v : Str) (c : Content) (e : Entry)
    (hkv : lookupAssoc p.content.properties k = some v)
    (hee : e ∈ c.entries)
    (hseq : seqConsistentB ops = true) :
    p.insertProperty k v = p
    ∧ c.prependUniqueEntry e = (false, c)
    ∧ Page.applyOps
        { content := (p.applyOps ops).content, modified := false } ops
      = { content := (p.applyOps ops).content, modified := false } := by
  refine ⟨page_insertProperty_noop p k v hkv,
    prependUniqueEntry_noop c e hee, ?_⟩
  have hcons := seqConsistentB_spec ops hseq
  have hfacts := applyOps_post_facts ops p hcons
  apply applyOps_fixed
  intro op hop
  cases op with
  | insertProp k' v' =>
    exact page_insertProperty_noop _ k' v' (hfacts.1 k' v' hop)
  | prependLine s =>
    exact page_prependLine_noop _ s (hfacts.2 s hop)

/-- C7 witness: the no-ops at concrete pages and the re-run of a small
two-mutation sequence, whose second pass leaves `modified` false. -/
theorem mutation_idempotence_witness :
    ({ content := { properties := [(['k'], ['v'])] } } : Page).insertProperty
        ['k'] ['v']
      = { content := { properties := [(['k'], ['v'])] } }
    ∧ ({ entries := [.line ['x']] } : Content).prependUniqueEntry
        (.line ['x'])
      = (false, { entries := [.line ['x']] })
    ∧ (Page.applyOps
        { content := (Page.applyOps
            { content := { properties := [(['k'], ['v'])] } }
            [.insertProp ['k'] ['v'], .prependLine ['x']]).content,
          modified := false }
        [.insertProp ['k'] ['v'], .prependLine ['x']]).modified
      = false := by
  have h := mutation_idempotence
    { content := { properties := [(['k'], ['v'])] } }
    [.insertProp ['k'] ['v'], .prependLine ['x']]
    ['k'] ['v'] { entries := [.line ['x']] } (.line ['x'])
    rfl (by decide) (by decide)
  exact ⟨h.1, h.2.1, congrArg Page.modified h.2.2⟩

/-- C7 counterexample: a sequence inserting two different values under
one key is not idempotent as a whole — after a write clears `modified`,
re-running the identical sequence sets `modified` again. -/
theorem mutation_sequence_counterexample :
    (Page.applyOps
      { content := (Page.applyOps {}
          [.insertProp ['k'] ['a'], .insertProp ['k'] ['b']]).content,
        modified := false }
      [.insertProp ['k'] ['a'], .insertProp ['k'] ['b']]).modified
    = true := rfl

/-- C8 (amended): parsing keeps every source line — leading blank lines
included — as one `Line` entry per non-fenced line; it is the renderer,
not the parser, that drops blank entries before the first non-blank one
(the `entries_started` skip equals a `dropWhile` on blank entries). -/
theorem parse_keeps_leading_blanks :
    (∀ s : Str, (rustLines s).head? ≠ some ['-', '-', '-'] →
      (∀ l ∈ rustLines s, stripFence l = none) →
      parseContent s
        = .ok { properties := [], entries := (rustLines s).map .line })
    ∧ ∀ es : List Entry,
        renderLoop false es = renderAll (es.dropWhile Entry.isEmptyB) := by
  refine ⟨fun s h1 h2 => ?_, renderLoop_false_eq⟩
  unfold parseContent
  cases hls : rustLines s with
  | nil => rfl
  | cons l rest =>
    rw [hls] at h1 h2
    have hld : l ≠ ['-', '-', '-'] := by
      intro hc
      exact h1 (by rw [hc]; rfl)
    dsimp only
    rw [if_neg hld, parseEntries_lines _ h2]

/-- C8 witness: a text with one leading blank line and an interior blank
line parses to one `Line` entry per source line, blanks preserved. -/
theorem parse_keeps_leading_blanks_witness :
    parseContent ['\n', 'a', '\n', '\n', 'b']
      = Except.ok
          ⟨[], [.line [], .line ['a'], .line [], .line ['b']]⟩ := by
  rw [parse_keeps_leading_blanks.1 ['\n', 'a', '\n', '\n', 'b']
    (by decide) (by decide)]
  rfl

/-- C8 counterexample: the entry list produced by parsing a text with a
leading blank line does contain a blank entry before the first non-blank
one — leading blanks are not dropped at parse time. -/
theorem parse_leading_blank_counterexample :
    parseContent ['\n', 'f', 'o', 'o']
      = Except.ok ⟨[], [.line [], .line ['f', 'o', 'o']]⟩
    ∧ Entry.isEmptyB (.line []) = true := by
  constructor
  · unfold parseContent
    rw [show rustLines ['\n', 'f', 'o', 'o'] = [[], ['f', 'o', 'o']]
      from rfl]
    dsimp only
    rw [if_neg (by decide), parseEntries_lines _ (by decide)]
    rfl
  · rfl

end Prep
